import Mathlib

/-!
Verification development for the desk-research repository.

Strings are modelled as `List Char`.  The modules below shallowly embed,
from the Python source:
  * `src/desk_research/tools/treatment_tools.py` (text cleaning,
    brand-token handling, `_dedupe_keep_order`, `_postprocess_brand_evidence`),
  * `src/desk_research/tools/ingestion_tools.py` (`_chunk_text_spans`),
  * `src/desk_research/tools/rag_tools.py` (`completion_with_context`),
  * `src/desk_research/flow/flow.py` (evaluation / retry loop and the
    parallel crew dispatch),
  * `src/desk_research/constants.py` (`MIN_APPROVAL_SCORE`, `MAX_RETRY_COUNT`).
-/

namespace DeskResearch

/-- Whitespace characters as matched by Python's `str.strip` / `\s` on the
ASCII range (space, tab, newline, carriage return, vertical tab, form feed). -/
def isWs (c : Char) : Bool :=
  c = ' ' || c = '\t' || c = '\n' || c = '\r' || c = Char.ofNat 11 || c = Char.ofNat 12

/-- The punctuation class of `_MULTI_PUNCT_RE`, i.e. `[!?.,;:]`. -/
def isPunc (c : Char) : Bool :=
  c = '!' || c = '?' || c = '.' || c = ',' || c = ';' || c = ':'

theorem isPunc_not_isWs {c : Char} (h : isPunc c = true) : isWs c = false := by
  simp only [isPunc, Bool.or_eq_true, decide_eq_true_eq] at h
  rcases h with ((((h | h) | h) | h) | h) | h <;> subst h <;> decide

/-- Drop a maximal whitespace suffix (the right half of Python `str.strip`). -/
def dropTrailWs : List Char → List Char
  | [] => []
  | c :: rest =>
    if dropTrailWs rest = [] ∧ isWs c then [] else c :: dropTrailWs rest

/-- Python `str.strip()`: remove leading and trailing whitespace. -/
def stripChars (l : List Char) : List Char :=
  dropTrailWs (l.dropWhile isWs)

/-- Helper for `collapseWs`; the flag records whether we are inside a
whitespace run whose single replacement space was already emitted. -/
def collapseWsAux : Bool → List Char → List Char
  | _, [] => []
  | inRun, c :: rest =>
    if isWs c then
      if inRun then collapseWsAux true rest
      else ' ' :: collapseWsAux true rest
    else c :: collapseWsAux false rest

/-- `_WS_RE.sub(" ", t)`: replace each maximal whitespace run by one space. -/
def collapseWs (l : List Char) : List Char :=
  collapseWsAux false l

/-- Helper for `puncCollapse`: `prev` is the previous character and `cnt`
how many consecutive copies of it were kept so far. -/
def puncAux : Char → Nat → List Char → List Char
  | _, _, [] => []
  | prev, cnt, c :: rest =>
    if isPunc c = true ∧ c = prev then
      if 2 ≤ cnt then puncAux prev cnt rest
      else c :: puncAux prev (cnt + 1) rest
    else c :: puncAux c 1 rest

/-- `_MULTI_PUNCT_RE.sub(r"\1\1", t)`: each maximal run of three or more
copies of the same punctuation character collapses to exactly two copies. -/
def puncCollapse (l : List Char) : List Char :=
  puncAux 'A' 0 l

/-- `_clean_text` from `treatment_tools.py` (both copies are identical):
strip, collapse whitespace runs to a single space, collapse repeated
punctuation, strip again. -/
def cleanText (l : List Char) : List Char :=
  stripChars (puncCollapse (collapseWs (stripChars l)))

/-! ### Normal-form predicates for the cleaned text -/

/-- Every whitespace character of the list is a plain space. -/
def wsOnlySpace (l : List Char) : Prop :=
  ∀ c ∈ l, isWs c = true → c = ' '

/-- No two adjacent whitespace characters. -/
def noTwoWs : List Char → Prop
  | a :: b :: rest => ¬(isWs a = true ∧ isWs b = true) ∧ noTwoWs (b :: rest)
  | _ => True

/-- No three adjacent equal punctuation characters. -/
def noTriple : List Char → Prop
  | a :: b :: c :: rest =>
      ¬(isPunc a = true ∧ a = b ∧ b = c) ∧ noTriple (b :: c :: rest)
  | _ => True

/-- The head, if any, is not whitespace. -/
def noLeadWs : List Char → Prop
  | [] => True
  | c :: _ => isWs c = false

/-- The last character, if any, is not whitespace. -/
def noTrailWsP (l : List Char) : Prop :=
  ∀ c, l.getLast? = some c → isWs c = false

theorem noTwoWs_tail {a : Char} {l : List Char} (h : noTwoWs (a :: l)) :
    noTwoWs l := by
  cases l with
  | nil => trivial
  | cons b rest => exact h.2

theorem noTwoWs_cons_of_head {a : Char} {l : List Char}
    (ha : isWs a = false) (hl : noTwoWs l) : noTwoWs (a :: l) := by
  cases l with
  | nil => trivial
  | cons b rest => exact ⟨fun hc => by simp [ha] at hc, hl⟩

theorem noTwoWs_cons_of_next {a : Char} {l : List Char}
    (hl : noTwoWs l) (hhd : noLeadWs l) : noTwoWs (a :: l) := by
  cases l with
  | nil => trivial
  | cons b rest =>
      refine ⟨fun hc => ?_, hl⟩
      simp [noLeadWs] at hhd
      rw [hhd] at hc
      exact absurd hc.2 (by simp)

/-- First two characters of `l` constrain how a character may be prepended
without creating a punctuation triple. -/
def headOkT (a : Char) : List Char → Prop
  | b :: c :: _ => ¬(isPunc a = true ∧ a = b ∧ b = c)
  | _ => True

theorem noTriple_cons {a : Char} {l : List Char} :
    noTriple (a :: l) ↔ headOkT a l ∧ noTriple l := by
  cases l with
  | nil => simp [noTriple, headOkT]
  | cons b rest =>
      cases rest with
      | nil => simp [noTriple, headOkT]
      | cons c rest' => simp [noTriple, headOkT]

theorem noTriple_tail {a : Char} {l : List Char} (h : noTriple (a :: l)) :
    noTriple l := (noTriple_cons.mp h).2

theorem noTriple_of_short {l : List Char} (h : l.length ≤ 2) : noTriple l := by
  match l with
  | [] => trivial
  | [_] => trivial
  | [_, _] => trivial
  | _ :: _ :: _ :: _ => simp at h

theorem noTriple_drop_append : ∀ (x l : List Char), noTriple (x ++ l) → noTriple l := by
  intro x
  induction x with
  | nil => intro l h; exact h
  | cons a t ih => intro l h; exact ih l (noTriple_tail h)

/-! ### Lemmas about `stripChars` -/

theorem noLeadWs_dropWhile (l : List Char) : noLeadWs (l.dropWhile isWs) := by
  induction l with
  | nil => trivial
  | cons c rest ih =>
      by_cases h : isWs c = true
      · simpa [List.dropWhile_cons, h] using ih
      · simp only [List.dropWhile_cons, h, if_false]
        simpa [noLeadWs] using h

theorem dropTrailWs_eq (c : Char) (rest : List Char) :
    dropTrailWs (c :: rest) =
      if dropTrailWs rest = [] ∧ isWs c then [] else c :: dropTrailWs rest := rfl

theorem dropTrailWs_nil_or_cons (c : Char) (rest : List Char) :
    dropTrailWs (c :: rest) = [] ∨ dropTrailWs (c :: rest) = c :: dropTrailWs rest := by
  rw [dropTrailWs_eq]
  split
  · exact Or.inl rfl
  · exact Or.inr rfl

theorem noTrailWsP_nil : noTrailWsP [] := by
  intro c hc; simp at hc

theorem noTrailWsP_cons_cons {a b : Char} {l : List Char}
    (h : noTrailWsP (a :: b :: l)) : noTrailWsP (b :: l) := by
  intro c hc
  exact h c (by rw [List.getLast?_cons_cons]; exact hc)

theorem noTrailWsP_singleton {a : Char} (h : isWs a = false) : noTrailWsP [a] := by
  intro c hc
  simp only [List.getLast?_singleton, Option.some.injEq] at hc
  rw [← hc]; exact h

theorem noTrailWsP_cons_of_tail {a : Char} {x : Char} {xs : List Char}
    (h : noTrailWsP (x :: xs)) : noTrailWsP (a :: x :: xs) := by
  intro c hc
  rw [List.getLast?_cons_cons] at hc
  exact h c hc

theorem exists_not_ws_of_noTrail :
    ∀ (x : Char) (xs : List Char), noTrailWsP (x :: xs) →
      ∃ c ∈ x :: xs, isWs c = false := by
  intro x xs
  induction xs generalizing x with
  | nil =>
      intro h
      exact ⟨x, by simp, h x (by simp)⟩
  | cons y ys ih =>
      intro h
      obtain ⟨c, hc, hw⟩ := ih y (noTrailWsP_cons_cons h)
      exact ⟨c, List.mem_cons_of_mem _ hc, hw⟩

theorem noTrailWsP_dropTrailWs (l : List Char) : noTrailWsP (dropTrailWs l) := by
  induction l with
  | nil => exact noTrailWsP_nil
  | cons c rest ih =>
      rw [dropTrailWs_eq]
      split
      · exact noTrailWsP_nil
      · rename_i hcond
        rcases Decidable.em (dropTrailWs rest = []) with hnil | hne
        · rw [hnil]
          refine noTrailWsP_singleton ?_
          by_contra hws
          exact hcond ⟨hnil, by simpa using hws⟩
        · cases hx : dropTrailWs rest with
          | nil => exact absurd hx hne
          | cons y ys =>
              rw [hx] at ih
              exact noTrailWsP_cons_of_tail ih

theorem noLeadWs_dropTrailWs {l : List Char} (h : noLeadWs l) :
    noLeadWs (dropTrailWs l) := by
  cases l with
  | nil => trivial
  | cons c rest =>
      rcases dropTrailWs_nil_or_cons c rest with hc | hc <;> rw [hc]
      · trivial
      · exact h

theorem stripChars_noLeadWs (l : List Char) : noLeadWs (stripChars l) :=
  noLeadWs_dropTrailWs (noLeadWs_dropWhile l)

theorem stripChars_noTrailWs (l : List Char) : noTrailWsP (stripChars l) :=
  noTrailWsP_dropTrailWs _

theorem dropWhile_id_of_noLeadWs {l : List Char} (h : noLeadWs l) :
    l.dropWhile isWs = l := by
  cases l with
  | nil => rfl
  | cons c rest => simp [List.dropWhile_cons, noLeadWs] at h ⊢; simp [h]

theorem dropTrailWs_id_of_noTrail {l : List Char} (h : noTrailWsP l) :
    dropTrailWs l = l := by
  induction l with
  | nil => rfl
  | cons c rest ih =>
      cases rest with
      | nil =>
          have hc : isWs c = false := h c (by simp)
          rw [dropTrailWs_eq]
          simp [dropTrailWs, hc]
      | cons x xs =>
          have hr : dropTrailWs (x :: xs) = x :: xs := ih (noTrailWsP_cons_cons h)
          rw [dropTrailWs_eq, hr]
          simp

theorem stripChars_id {l : List Char} (h1 : noLeadWs l) (h2 : noTrailWsP l) :
    stripChars l = l := by
  unfold stripChars
  rw [dropWhile_id_of_noLeadWs h1, dropTrailWs_id_of_noTrail h2]

/-! ### Lemmas about `collapseWs` -/

theorem collapseWsAux_ws_true {c : Char} (rest : List Char) (h : isWs c = true) :
    collapseWsAux true (c :: rest) = collapseWsAux true rest := by
  simp [collapseWsAux, h]

theorem collapseWsAux_ws_false {c : Char} (rest : List Char) (h : isWs c = true) :
    collapseWsAux false (c :: rest) = ' ' :: collapseWsAux true rest := by
  simp [collapseWsAux, h]

theorem collapseWsAux_not_ws {c : Char} (b : Bool) (rest : List Char)
    (h : isWs c = false) :
    collapseWsAux b (c :: rest) = c :: collapseWsAux false rest := by
  simp [collapseWsAux, h]

theorem collapseWsAux_wsOnlySpace : ∀ (l : List Char) (b : Bool),
    wsOnlySpace (collapseWsAux b l) := by
  intro l
  induction l with
  | nil => intro b c hc; simp [collapseWsAux] at hc
  | cons c rest ih =>
      intro b d hd hw
      by_cases hws : isWs c = true
      · cases b with
        | true =>
            simp only [collapseWsAux, hws, if_true] at hd
            exact ih true d hd hw
        | false =>
            simp only [collapseWsAux, hws, if_true, if_false] at hd
            rcases List.mem_cons.mp hd with h | h
            · exact h
            · exact ih true d h hw
      · simp only [collapseWsAux, hws] at hd
        rcases List.mem_cons.mp hd with h | h
        · subst h; exact absurd hw (by simp [hws])
        · exact ih false d h hw

theorem collapseWsAux_true_noLeadWs : ∀ (l : List Char),
    noLeadWs (collapseWsAux true l) := by
  intro l
  induction l with
  | nil => trivial
  | cons c rest ih =>
      by_cases hws : isWs c = true
      · simpa [collapseWsAux, hws] using ih
      · simp only [collapseWsAux, hws]
        simpa [noLeadWs] using hws

theorem collapseWsAux_noTwoWs : ∀ (l : List Char) (b : Bool),
    noTwoWs (collapseWsAux b l) := by
  intro l
  induction l with
  | nil => intro b; simp [collapseWsAux]; trivial
  | cons c rest ih =>
      intro b
      by_cases hws : isWs c = true
      · cases b with
        | true => simpa [collapseWsAux, hws] using ih true
        | false =>
            simp only [collapseWsAux, hws, if_true, if_false]
            exact noTwoWs_cons_of_next (ih true) (collapseWsAux_true_noLeadWs rest)
      · simp only [collapseWsAux, hws]
        exact noTwoWs_cons_of_head (by simpa using hws) (ih false)

theorem collapseWsAux_id : ∀ (l : List Char) (b : Bool),
    wsOnlySpace l → noTwoWs l → (b = true → noLeadWs l) →
    collapseWsAux b l = l := by
  intro l
  induction l with
  | nil => intro b _ _ _; rfl
  | cons c rest ih =>
      intro b h1 h2 h3
      by_cases hws : isWs c = true
      · have hsp : c = ' ' := h1 c (by simp) hws
        cases b with
        | true =>
            have := h3 rfl
            simp [noLeadWs, hws] at this
        | false =>
            have hlead : noLeadWs rest := by
              cases rest with
              | nil => trivial
              | cons x xs =>
                  have := h2.1
                  simp only [noLeadWs]
                  by_contra hx
                  exact this ⟨hws, by simpa using hx⟩
            have hrec : collapseWsAux true rest = rest :=
              ih true (fun d hd => h1 d (List.mem_cons_of_mem _ hd))
                (noTwoWs_tail h2) (fun _ => hlead)
            rw [collapseWsAux_ws_false rest hws, hrec, hsp]
      · have hrec : collapseWsAux false rest = rest :=
          ih false (fun d hd => h1 d (List.mem_cons_of_mem _ hd))
            (noTwoWs_tail h2) (by intro h; cases h)
        rw [collapseWsAux_not_ws b rest (by simpa using hws), hrec]

theorem collapseWsAux_eq_nil_all_ws : ∀ (l : List Char) (b : Bool),
    collapseWsAux b l = [] → ∀ c ∈ l, isWs c = true := by
  intro l
  induction l with
  | nil => intro b _ c hc; simp at hc
  | cons c rest ih =>
      intro b h d hd
      by_cases hws : isWs c = true
      · cases b with
        | true =>
            simp only [collapseWsAux, hws, if_true] at h
            rcases List.mem_cons.mp hd with h' | h'
            · subst h'; exact hws
            · exact ih true h d h'
        | false => simp [collapseWsAux, hws] at h
      · simp [collapseWsAux, hws] at h

theorem collapseWsAux_noTrail : ∀ (l : List Char) (b : Bool),
    noTrailWsP l → noTrailWsP (collapseWsAux b l) := by
  intro l
  induction l with
  | nil => intro b _; exact noTrailWsP_nil
  | cons c rest ih =>
      intro b h
      cases rest with
      | nil =>
          have hc : isWs c = false := h c (by simp)
          simp only [collapseWsAux, hc]
          exact noTrailWsP_singleton hc
      | cons x xs =>
          have hrest : noTrailWsP (x :: xs) := noTrailWsP_cons_cons h
          by_cases hws : isWs c = true
          · cases b with
            | true =>
                rw [collapseWsAux_ws_true _ hws]
                exact ih true hrest
            | false =>
                rw [collapseWsAux_ws_false _ hws]
                cases hx : collapseWsAux true (x :: xs) with
                | nil =>
                    exfalso
                    obtain ⟨d, hd, hdw⟩ := exists_not_ws_of_noTrail x xs hrest
                    have := collapseWsAux_eq_nil_all_ws (x :: xs) true hx d hd
                    rw [this] at hdw; cases hdw
                | cons y ys =>
                    have := ih true hrest
                    rw [hx] at this
                    exact noTrailWsP_cons_of_tail this
          · rw [collapseWsAux_not_ws b _ (by simpa using hws)]
            cases hx : collapseWsAux false (x :: xs) with
            | nil =>
                exact noTrailWsP_singleton (by simpa using hws)
            | cons y ys =>
                have := ih false hrest
                rw [hx] at this
                exact noTrailWsP_cons_of_tail this

theorem collapseWs_noLeadWs {l : List Char} (h : noLeadWs l) :
    noLeadWs (collapseWs l) := by
  cases l with
  | nil => trivial
  | cons c rest =>
      have hc : isWs c = false := h
      simp only [collapseWs, collapseWsAux, hc]
      exact hc

/-! ### Lemmas about `puncCollapse` -/

theorem puncAux_drop {prev c : Char} {cnt : Nat} (rest : List Char)
    (h : isPunc c = true ∧ c = prev) (hc : 2 ≤ cnt) :
    puncAux prev cnt (c :: rest) = puncAux prev cnt rest := by
  obtain ⟨hp, he⟩ := h
  subst he
  simp [puncAux, hp, hc]

theorem puncAux_keep {prev c : Char} {cnt : Nat} (rest : List Char)
    (h : isPunc c = true ∧ c = prev) (hc : ¬ 2 ≤ cnt) :
    puncAux prev cnt (c :: rest) = c :: puncAux prev (cnt + 1) rest := by
  obtain ⟨hp, he⟩ := h
  subst he
  simp [puncAux, hp, hc]

theorem puncAux_new {prev c : Char} {cnt : Nat} (rest : List Char)
    (h : ¬(isPunc c = true ∧ c = prev)) :
    puncAux prev cnt (c :: rest) = c :: puncAux c 1 rest := by
  simp only [puncAux, if_neg h]

theorem puncAux_mem : ∀ (l : List Char) (prev : Char) (cnt : Nat) (c : Char),
    c ∈ puncAux prev cnt l → c ∈ l := by
  intro l
  induction l with
  | nil => intro prev cnt c h; simp [puncAux] at h
  | cons a rest ih =>
      intro prev cnt c h
      by_cases hcond : isPunc a = true ∧ a = prev
      · by_cases hcnt : 2 ≤ cnt
        · rw [puncAux_drop rest hcond hcnt] at h
          exact List.mem_cons_of_mem _ (ih prev cnt c h)
        · rw [puncAux_keep rest hcond hcnt] at h
          rcases List.mem_cons.mp h with h' | h'
          · exact h' ▸ List.mem_cons_self _ _
          · exact List.mem_cons_of_mem _ (ih prev (cnt + 1) c h')
      · rw [puncAux_new rest hcond] at h
        rcases List.mem_cons.mp h with h' | h'
        · exact h' ▸ List.mem_cons_self _ _
        · exact List.mem_cons_of_mem _ (ih a 1 c h')

theorem puncAux_noTwoWs : ∀ (l : List Char) (prev : Char) (cnt : Nat),
    noTwoWs (prev :: l) → noTwoWs (prev :: puncAux prev cnt l) := by
  intro l
  induction l with
  | nil => intro prev cnt h; simp [puncAux]; trivial
  | cons c rest ih =>
      intro prev cnt h
      by_cases hcond : isPunc c = true ∧ c = prev
      · have hpp : isWs prev = false := hcond.2 ▸ isPunc_not_isWs hcond.1
        by_cases hcnt : 2 ≤ cnt
        · rw [puncAux_drop rest hcond hcnt]
          refine ih prev cnt ?_
          exact noTwoWs_cons_of_head hpp (noTwoWs_tail (noTwoWs_tail h))
        · rw [puncAux_keep rest hcond hcnt]
          have h2 : noTwoWs (prev :: rest) := by
            refine noTwoWs_cons_of_head hpp (noTwoWs_tail (noTwoWs_tail h))
          have := ih prev (cnt + 1) h2
          refine noTwoWs_cons_of_head hpp ?_
          rw [hcond.2]
          exact this
      · rw [puncAux_new rest hcond]
        refine ⟨fun hc => (by exact h.1 hc : False), ?_⟩
        exact ih c 1 (noTwoWs_tail h)

theorem headOkT_of_cond {prev c : Char} (t : List Char)
    (h : ¬(isPunc c = true ∧ c = prev)) : headOkT prev (c :: t) := by
  cases t with
  | nil => trivial
  | cons d t' =>
      rintro ⟨hp, he, _⟩
      exact h ⟨he ▸ hp, he.symm⟩

theorem replicate_append_cons (m : Nat) (a : Char) (t : List Char) :
    List.replicate m a ++ a :: t = List.replicate (m + 1) a ++ t := by
  rw [List.replicate_succ']
  simp

theorem puncAux_noTriple : ∀ (l : List Char) (prev : Char) (cnt : Nat),
    noTriple (List.replicate (min cnt 2) prev ++ puncAux prev cnt l) := by
  intro l
  induction l with
  | nil =>
      intro prev cnt
      simp only [puncAux, List.append_nil]
      exact noTriple_of_short (by simp [Nat.min_le_right])
  | cons c rest ih =>
      intro prev cnt
      by_cases hcond : isPunc c = true ∧ c = prev
      · by_cases hcnt : 2 ≤ cnt
        · rw [puncAux_drop rest hcond hcnt]
          exact ih prev cnt
        · rw [puncAux_keep rest hcond hcnt, hcond.2, replicate_append_cons]
          have hmin : min cnt 2 + 1 = min (cnt + 1) 2 := by omega
          rw [hmin]
          exact ih prev (cnt + 1)
      · rw [puncAux_new rest hcond]
        have base : noTriple (c :: puncAux c 1 rest) := by
          have := ih c 1
          simpa using this
        rcases Nat.lt_or_ge (min cnt 2) 1 with hm | hm
        · have : min cnt 2 = 0 := by omega
          rw [this]
          simpa using base
        · rcases Nat.lt_or_ge (min cnt 2) 2 with hm2 | hm2
          · have : min cnt 2 = 1 := by omega
            rw [this]
            simp only [List.replicate_one, List.singleton_append]
            exact noTriple_cons.mpr ⟨headOkT_of_cond _ hcond, base⟩
          · have : min cnt 2 = 2 := by omega
            rw [this]
            show noTriple (prev :: prev :: c :: puncAux c 1 rest)
            refine noTriple_cons.mpr ⟨?_, noTriple_cons.mpr ⟨headOkT_of_cond _ hcond, base⟩⟩
            rintro ⟨hp, _, he⟩
            exact hcond ⟨he ▸ hp, he.symm⟩

theorem puncAux_id : ∀ (l : List Char) (prev : Char) (cnt : Nat), cnt ≤ 2 →
    noTriple (List.replicate (min cnt 2) prev ++ l) → puncAux prev cnt l = l := by
  intro l
  induction l with
  | nil => intro prev cnt _ _; rfl
  | cons c rest ih =>
      intro prev cnt hcnt h
      by_cases hcond : isPunc c = true ∧ c = prev
      · by_cases h2 : 2 ≤ cnt
        · exfalso
          have hc2 : cnt = 2 := le_antisymm hcnt h2
          rw [hc2] at h
          have : noTriple (prev :: prev :: c :: rest) := by
            simpa [List.replicate] using h
          exact (noTriple_cons.mp this).1 ⟨hcond.2 ▸ hcond.1, rfl, hcond.2.symm⟩
        · rw [puncAux_keep rest hcond h2]
          congr 1
          refine ih prev (cnt + 1) (by omega) ?_
          rw [hcond.2] at h
          rw [replicate_append_cons] at h
          have hmin : min cnt 2 + 1 = min (cnt + 1) 2 := by omega
          rw [hmin] at h
          exact h
      · rw [puncAux_new rest hcond]
        congr 1
        refine ih c 1 (by omega) ?_
        have : noTriple (c :: rest) := by
          have := noTriple_drop_append (List.replicate (min cnt 2) prev) (c :: rest) h
          exact this
        simpa using this

theorem puncAux_ne_nil {prev : Char} {cnt : Nat} {c : Char} (rest : List Char)
    (hcnt : cnt ≤ 1) : puncAux prev cnt (c :: rest) ≠ [] := by
  by_cases hcond : isPunc c = true ∧ c = prev
  · rw [puncAux_keep rest hcond (by omega)]; simp
  · rw [puncAux_new rest hcond]; simp

theorem puncAux_noTrail : ∀ (l : List Char) (prev : Char) (cnt : Nat),
    noTrailWsP l → noTrailWsP (puncAux prev cnt l) := by
  intro l
  induction l with
  | nil => intro prev cnt _; simp [puncAux]; exact noTrailWsP_nil
  | cons c rest ih =>
      intro prev cnt h
      cases rest with
      | nil =>
          have hc : isWs c = false := h c (by simp)
          by_cases hcond : isPunc c = true ∧ c = prev
          · by_cases h2 : 2 ≤ cnt
            · rw [puncAux_drop [] hcond h2]
              simp [puncAux]; exact noTrailWsP_nil
            · rw [puncAux_keep [] hcond h2]
              simp only [puncAux]
              exact noTrailWsP_singleton hc
          · rw [puncAux_new [] hcond]
            simp only [puncAux]
            exact noTrailWsP_singleton hc
      | cons x xs =>
          have hrest : noTrailWsP (x :: xs) := noTrailWsP_cons_cons h
          by_cases hcond : isPunc c = true ∧ c = prev
          · by_cases h2 : 2 ≤ cnt
            · rw [puncAux_drop _ hcond h2]
              exact ih prev cnt hrest
            · rw [puncAux_keep _ hcond h2]
              cases hx : puncAux prev (cnt + 1) (x :: xs) with
              | nil =>
                  exact noTrailWsP_singleton (isPunc_not_isWs hcond.1)
              | cons y ys =>
                  have := ih prev (cnt + 1) hrest
                  rw [hx] at this
                  exact noTrailWsP_cons_of_tail this
          · rw [puncAux_new _ hcond]
            cases hx : puncAux c 1 (x :: xs) with
            | nil => exact absurd hx (puncAux_ne_nil xs (by omega))
            | cons y ys =>
                have := ih c 1 hrest
                rw [hx] at this
                exact noTrailWsP_cons_of_tail this

theorem puncCollapse_cons (c : Char) (rest : List Char) :
    puncCollapse (c :: rest) = c :: puncAux c 1 rest := by
  unfold puncCollapse
  refine puncAux_new rest ?_
  rintro ⟨hp, he⟩
  subst he
  simp [isPunc] at hp

theorem puncCollapse_noLeadWs {l : List Char} (h : noLeadWs l) :
    noLeadWs (puncCollapse l) := by
  cases l with
  | nil => trivial
  | cons c rest => rw [puncCollapse_cons]; exact h

theorem puncCollapse_noTriple (l : List Char) : noTriple (puncCollapse l) := by
  have := puncAux_noTriple l 'A' 0
  simpa [puncCollapse] using this

theorem puncCollapse_id {l : List Char} (h : noTriple l) : puncCollapse l = l := by
  unfold puncCollapse
  refine puncAux_id l 'A' 0 (by omega) ?_
  simpa using h

theorem puncCollapse_noTwoWs {l : List Char} (h : noTwoWs l) :
    noTwoWs (puncCollapse l) := by
  have h1 : noTwoWs ('A' :: l) := noTwoWs_cons_of_head (by decide) h
  have := puncAux_noTwoWs l 'A' 0 h1
  exact noTwoWs_tail this

theorem puncCollapse_wsOnlySpace {l : List Char} (h : wsOnlySpace l) :
    wsOnlySpace (puncCollapse l) := by
  intro c hc hw
  exact h c (puncAux_mem l 'A' 0 c hc) hw

theorem puncCollapse_noTrail {l : List Char} (h : noTrailWsP l) :
    noTrailWsP (puncCollapse l) :=
  puncAux_noTrail l 'A' 0 h

/-! ### `_clean_text`: normal form and idempotence -/

theorem cleanText_props (l : List Char) :
    wsOnlySpace (cleanText l) ∧ noTwoWs (cleanText l) ∧ noTriple (cleanText l) ∧
    noLeadWs (cleanText l) ∧ noTrailWsP (cleanText l) := by
  unfold cleanText
  set a := stripChars l with ha
  have ha1 : noLeadWs a := stripChars_noLeadWs l
  have ha2 : noTrailWsP a := stripChars_noTrailWs l
  set b := collapseWs a with hb
  have hb1 : wsOnlySpace b := collapseWsAux_wsOnlySpace a false
  have hb2 : noTwoWs b := collapseWsAux_noTwoWs a false
  have hb3 : noLeadWs b := collapseWs_noLeadWs ha1
  have hb4 : noTrailWsP b := collapseWsAux_noTrail a false ha2
  set c := puncCollapse b with hc
  have hc1 : wsOnlySpace c := puncCollapse_wsOnlySpace hb1
  have hc2 : noTwoWs c := puncCollapse_noTwoWs hb2
  have hc3 : noTriple c := puncCollapse_noTriple b
  have hc4 : noLeadWs c := puncCollapse_noLeadWs hb3
  have hc5 : noTrailWsP c := puncCollapse_noTrail hb4
  rw [stripChars_id hc4 hc5]
  exact ⟨hc1, hc2, hc3, hc4, hc5⟩

theorem cleanText_fix {l : List Char}
    (h1 : wsOnlySpace l) (h2 : noTwoWs l) (h3 : noTriple l)
    (h4 : noLeadWs l) (h5 : noTrailWsP l) : cleanText l = l := by
  unfold cleanText
  rw [stripChars_id h4 h5]
  have hcws : collapseWs l = l := collapseWsAux_id l false h1 h2 (by intro h; cases h)
  rw [hcws, puncCollapse_id h3, stripChars_id h4 h5]

/-! ### Case folding -/

/-- Python `str.lower()` restricted to ASCII, as `Char.toLower` implements it. -/
def lowerL (l : List Char) : List Char := l.map Char.toLower

theorem toNat_ofNat_small (n : Nat) (h2 : n < 55296) : (Char.ofNat n).toNat = n := by
  have hv : n.isValidChar := Or.inl h2
  rw [Char.ofNat, dif_pos hv]
  show UInt32.toNat ⟨BitVec.ofNatLt n _⟩ = n
  simp [UInt32.toNat]

theorem toNat_le_of_isWs {c : Char} (h : isWs c = true) : c.toNat ≤ 32 := by
  simp only [isWs, Bool.or_eq_true, decide_eq_true_eq] at h
  rcases h with ((((h | h) | h) | h) | h) | h <;> subst h <;> decide

theorem isWs_false_of_toNat_ge {c : Char} (h : 33 ≤ c.toNat) : isWs c = false := by
  by_contra h'
  have := toNat_le_of_isWs (by simpa using Bool.not_eq_false (isWs c) ▸ h')
  omega

theorem isWs_toLower (c : Char) : isWs c.toLower = isWs c := by
  simp only [Char.toLower]
  split
  · rename_i h
    have h1 : (Char.ofNat (c.toNat + 32)).toNat = c.toNat + 32 :=
      toNat_ofNat_small _ (by omega)
    have h2 : isWs (Char.ofNat (c.toNat + 32)) = false :=
      isWs_false_of_toNat_ge (by omega)
    have h3 : isWs c = false := isWs_false_of_toNat_ge (by omega)
    rw [h2, h3]
  · rfl

theorem dropWhile_isWs_map_toLower (l : List Char) :
    (lowerL l).dropWhile isWs = lowerL (l.dropWhile isWs) := by
  induction l with
  | nil => rfl
  | cons c rest ih =>
      simp only [lowerL, List.map_cons, List.dropWhile_cons, isWs_toLower]
      by_cases h : isWs c = true
      · simpa [h] using ih
      · simp [h]

theorem dropTrailWs_map_toLower (l : List Char) :
    dropTrailWs (lowerL l) = lowerL (dropTrailWs l) := by
  induction l with
  | nil => rfl
  | cons c rest ih =>
      simp only [lowerL, List.map_cons]
      rw [dropTrailWs_eq, dropTrailWs_eq]
      rw [show (List.map Char.toLower rest) = lowerL rest from rfl, ih]
      simp only [isWs_toLower]
      by_cases hnil : dropTrailWs rest = []
      · simp only [hnil, lowerL]
        by_cases h : isWs c = true <;> simp [h]
      · have : lowerL (dropTrailWs rest) ≠ [] := by
          simpa [lowerL, List.map_eq_nil_iff] using hnil
        simp [hnil, this, lowerL]

theorem stripChars_lowerL (l : List Char) :
    stripChars (lowerL l) = lowerL (stripChars l) := by
  unfold stripChars
  rw [dropWhile_isWs_map_toLower, dropTrailWs_map_toLower]

/-! ### Claim C10 -/

/-- C10: `_clean_text` (identical in `tools/treatment_tools.py` and
`utils/treatment_tools.py`) is idempotent, and its output never contains two
adjacent whitespace characters nor three or more adjacent copies of the same
punctuation character among `! ? . , ; :`. -/
theorem clean_text_idempotent_and_normalized (t : List Char) :
    cleanText (cleanText t) = cleanText t ∧
    noTwoWs (cleanText t) ∧ noTriple (cleanText t) := by
  obtain ⟨h1, h2, h3, h4, h5⟩ := cleanText_props t
  exact ⟨cleanText_fix h1 h2 h3 h4 h5, h2, h3⟩

/-! ### `_dedupe_keep_order` -/

/-- The comparison key of `_dedupe_keep_order`: `x.strip().lower()`. -/
def dedupeKey (x : List Char) : List Char := lowerL (stripChars x)

/-- Loop of `_dedupe_keep_order`; the Python `seen` set is modelled as the
list of keys added so far. -/
def dedupeAux (seen : List (List Char)) : List (List Char) → List (List Char)
  | [] => []
  | x :: rest =>
    if dedupeKey x = [] ∨ dedupeKey x ∈ seen then dedupeAux seen rest
    else x :: dedupeAux (dedupeKey x :: seen) rest

/-- `_dedupe_keep_order` from `treatment_tools.py`. -/
def dedupeKeepOrder (seq : List (List Char)) : List (List Char) := dedupeAux [] seq

/-- Modelled from the claim wording: keep an element exactly when its
stripped-lowercased key is non-empty and no earlier element of the input has
the same key (`prior` collects the earlier elements). -/
def firstOccurrenceFilter (prior : List (List Char)) : List (List Char) → List (List Char)
  | [] => []
  | x :: rest =>
    if dedupeKey x = [] ∨ ∃ y ∈ prior, dedupeKey y = dedupeKey x then
      firstOccurrenceFilter (prior ++ [x]) rest
    else x :: firstOccurrenceFilter (prior ++ [x]) rest

theorem dedupeAux_sublist : ∀ (seq : List (List Char)) (seen : List (List Char)),
    (dedupeAux seen seq).Sublist seq := by
  intro seq
  induction seq with
  | nil => intro seen; simp [dedupeAux]
  | cons x rest ih =>
      intro seen
      simp only [dedupeAux]
      split
      · exact (ih seen).cons x
      · exact (ih (dedupeKey x :: seen)).cons₂ x

theorem dedupeAux_keys : ∀ (seq seen : List (List Char)),
    (∀ x ∈ dedupeAux seen seq, dedupeKey x ≠ [] ∧ dedupeKey x ∉ seen) ∧
    (dedupeAux seen seq).Pairwise (fun a b => dedupeKey a ≠ dedupeKey b) := by
  intro seq
  induction seq with
  | nil =>
      intro seen
      refine ⟨?_, ?_⟩
      · intro x hx; simp [dedupeAux] at hx
      · simp [dedupeAux]
  | cons x rest ih =>
      intro seen
      simp only [dedupeAux]
      split
      · exact ih seen
      · rename_i hcond
        push_neg at hcond
        obtain ⟨hk, hks⟩ := hcond
        obtain ⟨ihmem, ihpw⟩ := ih (dedupeKey x :: seen)
        constructor
        · intro y hy
          rcases List.mem_cons.mp hy with h | h
          · subst h; exact ⟨hk, hks⟩
          · obtain ⟨h1, h2⟩ := ihmem y h
            exact ⟨h1, fun hm => h2 (List.mem_cons_of_mem _ hm)⟩
        · refine List.Pairwise.cons ?_ ihpw
          intro y hy
          obtain ⟨_, h2⟩ := ihmem y hy
          intro he
          exact h2 (he ▸ List.mem_cons_self _ _)

theorem dedupeAux_eq_spec : ∀ (seq seen prior : List (List Char)),
    (∀ k, k ≠ [] → (k ∈ seen ↔ ∃ y ∈ prior, dedupeKey y = k)) →
    dedupeAux seen seq = firstOccurrenceFilter prior seq := by
  intro seq
  induction seq with
  | nil => intro seen prior _; rfl
  | cons x rest ih =>
      intro seen prior hinv
      simp only [dedupeAux, firstOccurrenceFilter]
      by_cases hk : dedupeKey x = []
      · rw [if_pos (Or.inl hk), if_pos (Or.inl hk)]
        refine ih seen (prior ++ [x]) ?_
        intro k hkne
        rw [hinv k hkne]
        constructor
        · rintro ⟨y, hy, he⟩; exact ⟨y, List.mem_append_left _ hy, he⟩
        · rintro ⟨y, hy, he⟩
          rcases List.mem_append.mp hy with h | h
          · exact ⟨y, h, he⟩
          · simp at h; subst h; exact absurd (he ▸ hk) hkne
      · have hiff : dedupeKey x ∈ seen ↔ ∃ y ∈ prior, dedupeKey y = dedupeKey x :=
          hinv _ hk
        by_cases hs : dedupeKey x ∈ seen
        · rw [if_pos (Or.inr hs), if_pos (Or.inr (hiff.mp hs))]
          refine ih seen (prior ++ [x]) ?_
          intro k hkne
          rw [hinv k hkne]
          constructor
          · rintro ⟨y, hy, he⟩; exact ⟨y, List.mem_append_left _ hy, he⟩
          · rintro ⟨y, hy, he⟩
            rcases List.mem_append.mp hy with h | h
            · exact ⟨y, h, he⟩
            · simp at h; subst h
              exact he ▸ hiff.mp hs
        · have hnex : ¬ ∃ y ∈ prior, dedupeKey y = dedupeKey x :=
            fun h => hs (hiff.mpr h)
          rw [if_neg (not_or.mpr ⟨hk, hs⟩), if_neg (not_or.mpr ⟨hk, hnex⟩)]
          congr 1
          refine ih (dedupeKey x :: seen) (prior ++ [x]) ?_
          intro k hkne
          rw [List.mem_cons]
          constructor
          · rintro (h | h)
            · exact ⟨x, List.mem_append_right _ (by simp), h.symm⟩
            · obtain ⟨y, hy, he⟩ := (hinv k hkne).mp h
              exact ⟨y, List.mem_append_left _ hy, he⟩
          · rintro ⟨y, hy, he⟩
            rcases List.mem_append.mp hy with h | h
            · exact Or.inr ((hinv k hkne).mpr ⟨y, h, he⟩)
            · simp at h; subst h; exact Or.inl he.symm

theorem lowerL_eq_dedupeKey_eq {a b : List Char} (h : lowerL a = lowerL b) :
    dedupeKey a = dedupeKey b := by
  unfold dedupeKey
  rw [← stripChars_lowerL, ← stripChars_lowerL, h]

/-! ### Claim C5 -/

/-- C5: `_dedupe_keep_order` keeps exactly the first occurrence of each
distinct name under case-insensitive whitespace-stripped comparison, in input
order, dropping entries that are empty after stripping; in particular the
output is a subsequence of the input and no two of its elements are
case-insensitively equal. -/
theorem dedupe_keep_order_correct (seq : List (List Char)) :
    (dedupeKeepOrder seq).Sublist seq ∧
    dedupeKeepOrder seq = firstOccurrenceFilter [] seq ∧
    (∀ x ∈ dedupeKeepOrder seq, dedupeKey x ≠ []) ∧
    (dedupeKeepOrder seq).Pairwise (fun a b => lowerL a ≠ lowerL b) := by
  refine ⟨dedupeAux_sublist seq [], ?_, ?_, ?_⟩
  · exact dedupeAux_eq_spec seq [] [] (by intro k hk; simp)
  · intro x hx
    exact ((dedupeAux_keys seq []).1 x hx).1
  · refine ((dedupeAux_keys seq []).2).imp ?_
    intro a b hab he
    exact hab (lowerL_eq_dedupeKey_eq he)

/-- Witness for C5 at a concrete list with case/whitespace duplicates and an
empty entry. -/
theorem dedupe_keep_order_correct_witness :
    dedupeKeepOrder ["A".toList, "a ".toList, " ".toList, "b".toList] =
      firstOccurrenceFilter [] ["A".toList, "a ".toList, " ".toList, "b".toList] ∧
    dedupeKey "A".toList ≠ [] := by
  have h := dedupe_keep_order_correct ["A".toList, "a ".toList, " ".toList, "b".toList]
  exact ⟨h.2.1, h.2.2.1 "A".toList (by decide)⟩

/-- Witness for C10 at a concrete string. -/
theorem clean_text_idempotent_witness :
    cleanText (cleanText "  ola   mundo!!!! ".toList) = cleanText "  ola   mundo!!!! ".toList :=
  (clean_text_idempotent_and_normalized "  ola   mundo!!!! ".toList).1

/-! ### Flow: evaluation and retry loop (`flow/flow.py`, `constants.py`) -/

/-- `MIN_APPROVAL_SCORE` from `constants.py`. -/
def MIN_APPROVAL_SCORE : Int := 80

/-- `MAX_RETRY_COUNT` from `constants.py`. -/
def MAX_RETRY_COUNT : Nat := 2

/-- The fields of `DeskResearchState` used by the evaluation loop. -/
structure FlowState where
  retry_count : Nat
  feedback : List Char
  final_report : List Char
deriving DecidableEq

/-- `_extract_review_data`: a review with a `score` attribute is
`some (score, feedback)`; otherwise the fallback `(100, "Approved (Fallback)")`. -/
def extractReviewData (review : Option (Int × List Char)) : Int × List Char :=
  match review with
  | some r => r
  | none => (100, "Approved (Fallback)".toList)

inductive EvalRoute where
  | approved
  | rejected
deriving DecidableEq

/-- `evaluate_report`: compare the extracted score against
`MIN_APPROVAL_SCORE`, update `feedback` / `retry_count`, and return the route. -/
def evaluateReport (st : FlowState) (review : Option (Int × List Char)) :
    FlowState × EvalRoute :=
  if MIN_APPROVAL_SCORE ≤ (extractReviewData review).1 then
    ({ st with feedback := [] }, .approved)
  else
    ({ st with feedback := (extractReviewData review).2, retry_count := st.retry_count + 1 }, .rejected)

inductive FlowRoute where
  | maxRetries
  | retrySynthesis
  | approvedRoute
deriving DecidableEq

/-- `flow_control`: the router after `evaluate_report`. -/
def flowControl (rc : Nat) (fb : List Char) : FlowRoute :=
  if rc > MAX_RETRY_COUNT then .maxRetries
  else if fb ≠ [] then .retrySynthesis
  else .approvedRoute

inductive FlowOutcome where
  | approvedDone (report : List Char)
  | forcedDone (report : List Char)
  | pending (st : FlowState)
deriving DecidableEq

/-- The evaluation/retry loop of `DeskResearchFlow`, entered after the initial
synthesis.  `synth k` is the report produced by the `k`-th re-synthesis,
`reviews` the successive evaluator outputs, and the returned `Nat` counts how
many times synthesis was re-executed.  When the review list is exhausted the
loop is reported as `pending` (the real flow always receives another review). -/
def runFlow (synth : Nat → List Char) :
    FlowState → Nat → List (Option (Int × List Char)) → FlowOutcome × Nat
  | st, k, [] => (.pending st, k)
  | st, k, r :: rest =>
    let st' := (evaluateReport st r).1
    match flowControl st'.retry_count st'.feedback with
    | .maxRetries => (.forcedDone st'.final_report, k)
    | .approvedRoute => (.approvedDone st'.final_report, k)
    | .retrySynthesis =>
        runFlow synth { st' with final_report := synth (k + 1) } (k + 1) rest

theorem evaluateReport_final_report (st : FlowState) (r : Option (Int × List Char)) :
    ((evaluateReport st r).1).final_report = st.final_report := by
  unfold evaluateReport
  split <;> rfl

theorem evaluateReport_retry_count (st : FlowState) (r : Option (Int × List Char)) :
    ((evaluateReport st r).1).retry_count = st.retry_count ∨
    ((evaluateReport st r).1).retry_count = st.retry_count + 1 := by
  unfold evaluateReport
  split
  · exact Or.inl rfl
  · exact Or.inr rfl

theorem evaluateReport_feedback_of_rc_changed {st : FlowState}
    {r : Option (Int × List Char)}
    (h : ((evaluateReport st r).1).retry_count ≠ st.retry_count) :
    ((evaluateReport st r).1).retry_count = st.retry_count + 1 := by
  rcases evaluateReport_retry_count st r with h' | h'
  · exact absurd h' h
  · exact h'

theorem flowControl_retry_le {rc : Nat} {fb : List Char}
    (h : flowControl rc fb = .retrySynthesis) : rc ≤ MAX_RETRY_COUNT := by
  unfold flowControl at h
  by_cases hrc : rc > MAX_RETRY_COUNT
  · rw [if_pos hrc] at h; cases h
  · omega

theorem flowControl_max {rc : Nat} (fb : List Char)
    (h : rc > MAX_RETRY_COUNT) : flowControl rc fb = .maxRetries := by
  unfold flowControl
  rw [if_pos h]

theorem runFlow_count_le (synth : Nat → List Char) :
    ∀ (reviews : List (Option (Int × List Char))) (st : FlowState) (k : Nat),
      k ≤ st.retry_count → k ≤ MAX_RETRY_COUNT →
      (runFlow synth st k reviews).2 ≤ MAX_RETRY_COUNT := by
  intro reviews
  induction reviews with
  | nil => intro st k _ hk2; simpa [runFlow] using hk2
  | cons r rest ih =>
      intro st k hk1 hk2
      simp only [runFlow]
      cases hfc : flowControl ((evaluateReport st r).1).retry_count
          ((evaluateReport st r).1).feedback with
      | maxRetries => simpa using hk2
      | approvedRoute => simpa using hk2
      | retrySynthesis =>
          simp only []
          have hle : ((evaluateReport st r).1).retry_count ≤ MAX_RETRY_COUNT :=
            flowControl_retry_le hfc
          have hrcup : ((evaluateReport st r).1).retry_count = st.retry_count ∨
              ((evaluateReport st r).1).retry_count = st.retry_count + 1 :=
            evaluateReport_retry_count st r
          have hfb : ((evaluateReport st r).1).feedback ≠ [] := by
            intro hfbnil
            unfold flowControl at hfc
            rw [hfbnil] at hfc
            by_cases hrc : ((evaluateReport st r).1).retry_count > MAX_RETRY_COUNT
            · rw [if_pos hrc] at hfc; cases hfc
            · rw [if_neg hrc] at hfc; simp at hfc
          have hrc1 : ((evaluateReport st r).1).retry_count = st.retry_count + 1 := by
            by_cases hsc : MIN_APPROVAL_SCORE ≤ (extractReviewData r).1
            · exfalso; unfold evaluateReport at hfb; rw [if_pos hsc] at hfb
              simp at hfb
            · unfold evaluateReport; rw [if_neg hsc]
          refine ih _ (k + 1) ?_ ?_
          · simp only [hrc1]; omega
          · omega

theorem runFlow_max_step (synth : Nat → List Char) (st : FlowState) (k : Nat)
    (r : Option (Int × List Char)) (rest : List (Option (Int × List Char)))
    (h : ((evaluateReport st r).1).retry_count > MAX_RETRY_COUNT) :
    runFlow synth st k (r :: rest) = (.forcedDone st.final_report, k) := by
  simp only [runFlow]
  rw [flowControl_max _ h, evaluateReport_final_report]

/-! ### Claim C3 -/

/-- C3: in the evaluation/retry loop, synthesis is re-executed at most
`MAX_RETRY_COUNT = 2` times after the initial synthesis; each rejection
increments `retry_count` by one; `flow_control` routes to `retry_synthesis`
only while `retry_count ≤ MAX_RETRY_COUNT`; and once `retry_count` exceeds
`MAX_RETRY_COUNT` it routes to `max_retries`, exporting the current
`final_report` instead of retrying. -/
theorem flow_retry_bounded (synth : Nat → List Char)
    (reviews : List (Option (Int × List Char))) (report0 : List Char) :
    (runFlow synth ⟨0, [], report0⟩ 0 reviews).2 ≤ MAX_RETRY_COUNT ∧
    (∀ st r, (evaluateReport st r).2 = .rejected →
      ((evaluateReport st r).1).retry_count = st.retry_count + 1) ∧
    (∀ rc fb, flowControl rc fb = .retrySynthesis → rc ≤ MAX_RETRY_COUNT) ∧
    (∀ rc fb, rc > MAX_RETRY_COUNT → flowControl rc fb = .maxRetries) ∧
    (∀ st k r rest, ((evaluateReport st r).1).retry_count > MAX_RETRY_COUNT →
      runFlow synth st k (r :: rest) = (.forcedDone st.final_report, k)) := by
  refine ⟨runFlow_count_le synth reviews _ 0 (by omega) (by omega), ?_, ?_, ?_, ?_⟩
  · intro st r h
    by_cases hsc : MIN_APPROVAL_SCORE ≤ (extractReviewData r).1
    · exfalso; unfold evaluateReport at h; rw [if_pos hsc] at h; cases h
    · unfold evaluateReport; rw [if_neg hsc]
  · intro rc fb h; exact flowControl_retry_le h
  · intro rc fb h; exact flowControl_max fb h
  · intro st k r rest h; exact runFlow_max_step synth st k r rest h

/-- Witness for C3: a concrete run in which every review scores 10; the loop
re-synthesizes exactly twice and then gives up via `max_retries`. -/
theorem flow_retry_bounded_witness :
    (runFlow (fun _ => ['R'])
      ⟨0, [], ['R']⟩ 0
      [some (10, ['f']), some (10, ['f']), some (10, ['f']), some (10, ['f'])]).2
        ≤ MAX_RETRY_COUNT ∧
    flowControl 3 ['f'] = .maxRetries ∧
    (evaluateReport ⟨0, [], ['R']⟩ (some (10, ['f']))).1.retry_count = 1 := by
  have h := flow_retry_bounded (fun _ => ['R'])
    [some (10, ['f']), some (10, ['f']), some (10, ['f']), some (10, ['f'])] ['R']
  refine ⟨h.1, h.2.2.2.1 3 ['f'] (by decide), ?_⟩
  have := h.2.1 ⟨0, [], ['R']⟩ (some (10, ['f'])) (by decide)
  simpa using this

/-! ### Claim C4 -/

/-- C4: `evaluate_report` with an extracted score at least
`MIN_APPROVAL_SCORE = 80` clears `feedback` and returns `approved`; with a
lower score it stores the evaluator feedback, increments `retry_count` by
exactly one, and returns `rejected`. -/
theorem evaluate_report_spec (st : FlowState) (review : Option (Int × List Char)) :
    (MIN_APPROVAL_SCORE ≤ (extractReviewData review).1 →
      (evaluateReport st review).2 = .approved ∧
      ((evaluateReport st review).1).feedback = [] ∧
      ((evaluateReport st review).1).retry_count = st.retry_count ∧
      ((evaluateReport st review).1).final_report = st.final_report) ∧
    ((extractReviewData review).1 < MIN_APPROVAL_SCORE →
      (evaluateReport st review).2 = .rejected ∧
      ((evaluateReport st review).1).feedback = (extractReviewData review).2 ∧
      ((evaluateReport st review).1).retry_count = st.retry_count + 1 ∧
      ((evaluateReport st review).1).final_report = st.final_report) := by
  constructor
  · intro h
    unfold evaluateReport
    rw [if_pos h]
    exact ⟨rfl, rfl, rfl, rfl⟩
  · intro h
    unfold evaluateReport
    rw [if_neg (by omega)]
    exact ⟨rfl, rfl, rfl, rfl⟩

/-- Witness for C4 at score 85 (approved) and score 50 (rejected). -/
theorem evaluate_report_spec_witness :
    (evaluateReport ⟨0, [], ['R']⟩ (some (85, ['f']))).2 = .approved ∧
    (evaluateReport ⟨0, [], ['R']⟩ (some (50, ['f']))).2 = .rejected ∧
    (evaluateReport ⟨0, [], ['R']⟩ (some (50, ['f']))).1.retry_count = 1 := by
  have h1 := (evaluate_report_spec ⟨0, [], ['R']⟩ (some (85, ['f']))).1 (by decide)
  have h2 := (evaluate_report_spec ⟨0, [], ['R']⟩ (some (50, ['f']))).2 (by decide)
  exact ⟨h1.1, h2.1, h2.2.2.1⟩

/-! ### Parallel crew dispatch (`run_all_crews_parallel`) -/

/-- The six crew names, in the order `run_all_crews_parallel` builds tasks. -/
def crewOrder : List String := ["academic", "web", "x", "genie", "youtube", "consumer_hours"]

/-- The tasks submitted to the thread pool: the crews of `crewOrder` that are
in `selected_crews`, in the fixed source order. -/
def buildTasks (selected : List String) : List String :=
  crewOrder.filter (fun c => c ∈ selected)

/-- What `state.results[crew]` receives: the crew's result on success, or
`"Erro: " ++ message` when the crew's future raised. -/
def crewEntry (outcome : String → Except String String) (c : String) : String :=
  match outcome c with
  | .ok r => r
  | .error e => "Erro: " ++ e

/-- `state.results` as the association list written by the `as_completed`
loop; `order` is the completion order of the futures. -/
def runResults (outcome : String → Except String String) (order : List String) :
    List (String × String) :=
  order.map (fun c => (c, crewEntry outcome c))

theorem runResults_lookup_mem (outcome : String → Except String String) :
    ∀ (order : List String) (c : String), c ∈ order →
      (runResults outcome order).lookup c = some (crewEntry outcome c) := by
  intro order
  induction order with
  | nil => intro c hc; simp at hc
  | cons d rest ih =>
      intro c hc
      show List.lookup c ((d, crewEntry outcome d) :: runResults outcome rest)
        = some (crewEntry outcome c)
      by_cases he : c = d
      · subst he
        simp [List.lookup]
      · have hbeq : (c == d) = false := beq_eq_false_iff_ne.mpr he
        simp only [List.lookup, hbeq]
        refine ih c ?_
        rcases List.mem_cons.mp hc with h | h
        · exact absurd h he
        · exact h

theorem runResults_lookup_not_mem (outcome : String → Except String String) :
    ∀ (order : List String) (c : String), c ∉ order →
      (runResults outcome order).lookup c = none := by
  intro order
  induction order with
  | nil => intro c _; rfl
  | cons d rest ih =>
      intro c hc
      show List.lookup c ((d, crewEntry outcome d) :: runResults outcome rest) = none
      have hne : c ≠ d := fun h => hc (h ▸ List.mem_cons_self _ _)
      have hbeq : (c == d) = false := beq_eq_false_iff_ne.mpr hne
      simp only [List.lookup, hbeq]
      exact ih c (fun h => hc (List.mem_cons_of_mem _ h))

/-! ### Claim C8 -/

/-- C8: after `run_all_crews_parallel` with a non-empty selection,
`state.results` has exactly one entry per selected crew among the six known
names, independent of completion order; a crew whose execution raised `e`
maps to `"Erro: " ++ e`; and a crew's entry depends only on that crew's own
outcome. -/
theorem run_all_crews_results (selected : List String)
    (outcome : String → Except String String) (order : List String)
    (hperm : order.Perm (buildTasks selected))
    (_hne : buildTasks selected ≠ []) :
    (∀ c ∈ buildTasks selected,
      (runResults outcome order).lookup c = some (crewEntry outcome c)) ∧
    (∀ c, c ∉ buildTasks selected → (runResults outcome order).lookup c = none) ∧
    (∀ c e, c ∈ buildTasks selected → outcome c = .error e →
      (runResults outcome order).lookup c = some ("Erro: " ++ e)) ∧
    ((runResults outcome order).map Prod.fst).Perm (buildTasks selected) ∧
    (∀ (outcome' : String → Except String String) c, outcome' c = outcome c →
      (runResults outcome' order).lookup c = (runResults outcome order).lookup c) := by
  refine ⟨?_, ?_, ?_, ?_, ?_⟩
  · intro c hc
    exact runResults_lookup_mem outcome order c (hperm.mem_iff.mpr hc)
  · intro c hc
    exact runResults_lookup_not_mem outcome order c (fun h => hc (hperm.mem_iff.mp h))
  · intro c e hc herr
    rw [runResults_lookup_mem outcome order c (hperm.mem_iff.mpr hc)]
    simp [crewEntry, herr]
  · have hmap : (runResults outcome order).map Prod.fst = order := by
      unfold runResults
      rw [List.map_map]
      have h2 : (Prod.fst ∘ fun c => (c, crewEntry outcome c)) = fun c : String => c := rfl
      rw [h2]
      exact List.map_id' order
    rw [hmap]; exact hperm
  · intro outcome' c hagree
    by_cases hc : c ∈ order
    · rw [runResults_lookup_mem outcome order c hc,
        runResults_lookup_mem outcome' order c hc]
      simp [crewEntry, hagree]
    · rw [runResults_lookup_not_mem outcome order c hc,
        runResults_lookup_not_mem outcome' order c hc]

/-- Witness for C8: crews `web` and `x` selected, completing in reverse
order, with `x` raising `"boom"`. -/
theorem run_all_crews_results_witness :
    (runResults (fun c => if c = "x" then .error "boom" else .ok "W")
      ["x", "web"]).lookup "x" = some "Erro: boom" ∧
    (runResults (fun c => if c = "x" then .error "boom" else .ok "W")
      ["x", "web"]).lookup "web" = some "W" := by
  have h := run_all_crews_results ["web", "x"]
    (fun c => if c = "x" then .error "boom" else .ok "W") ["x", "web"]
    (by decide) (by decide)
  constructor
  · exact h.2.2.1 "x" "boom" (by decide) (by rfl)
  · have := h.1 "web" (by decide)
    simpa [crewEntry] using this

/-! ### `completion_with_context` (`rag_tools.py`) -/

/-- A status-poll response: HTTP code and the parsed `status` field, if any. -/
structure StatusResp where
  code : Nat
  statusField : Option Int
deriving DecidableEq

/-- The early-exit condition of the poll loop: HTTP 200 and `status in (0, 2)`. -/
def goodStatus (s : StatusResp) : Prop :=
  s.code = 200 ∧ (s.statusField = some 0 ∨ s.statusField = some 2)

instance (s : StatusResp) : Decidable (goodStatus s) := by
  unfold goodStatus; infer_instance

/-- The `for attempt in range(poll_attempts)` loop of
`completion_with_context`.  `polls i` is the response to the `i`-th status
request; returns (number of status requests issued, `done`, last 200 payload). -/
def pollLoop (polls : Nat → StatusResp) (i : Nat) :
    Nat → Option StatusResp → Nat × Bool × Option StatusResp
  | 0, sp => (0, false, sp)
  | r + 1, sp =>
    let s := polls i
    let sp' := if s.code = 200 then some s else sp
    if goodStatus s then (1, true, sp')
    else
      let t := pollLoop polls (i + 1) r sp'
      (t.1 + 1, t.2.1, t.2.2)

/-- Network-level inputs of one `completion_with_context` call. -/
structure CwcConfig where
  baseOk : Bool
  keyOk : Bool
  initCode : Nat
  uuidFound : Bool
  polls : Nat → StatusResp
  fetchCode : Nat

/-- Instrumented observable outcome of `completion_with_context`. -/
structure CwcOut where
  ok : Bool
  pollCount : Nat
  fetchCount : Nat
  done : Bool
  reachedPoll : Bool
deriving DecidableEq

/-- `completion_with_context`: early returns for missing base/key, a failed
initiation POST, or a missing uuid; otherwise poll the status endpoint at
most `pollAttempts` times, then fetch the result exactly once; the result is
`ok` exactly when the fetch returns HTTP 200. -/
def completionWithContext (cfg : CwcConfig) (pollAttempts : Nat) : CwcOut :=
  if cfg.baseOk = false then ⟨false, 0, 0, false, false⟩
  else if cfg.keyOk = false then ⟨false, 0, 0, false, false⟩
  else if ¬(cfg.initCode = 200 ∨ cfg.initCode = 201) then ⟨false, 0, 0, false, false⟩
  else if cfg.uuidFound = false then ⟨false, 0, 0, false, false⟩
  else
    let t := pollLoop cfg.polls 0 pollAttempts none
    ⟨decide (cfg.fetchCode = 200), t.1, 1, t.2.1, true⟩

theorem pollLoop_spec (polls : Nat → StatusResp) :
    ∀ (remaining i : Nat) (sp : Option StatusResp),
      (pollLoop polls i remaining sp).1 ≤ remaining ∧
      (∀ j, j + 1 < (pollLoop polls i remaining sp).1 → ¬ goodStatus (polls (i + j))) ∧
      ((pollLoop polls i remaining sp).2.1 = true ↔
        0 < (pollLoop polls i remaining sp).1 ∧
        goodStatus (polls (i + ((pollLoop polls i remaining sp).1 - 1)))) ∧
      ((pollLoop polls i remaining sp).2.1 = false →
        (pollLoop polls i remaining sp).1 = remaining) := by
  intro remaining
  induction remaining with
  | zero =>
      intro i sp
      refine ⟨le_refl _, ?_, ?_, fun _ => rfl⟩
      · intro j hj; simp [pollLoop] at hj
      · simp [pollLoop]
  | succ r ih =>
      intro i sp
      by_cases hg : goodStatus (polls i)
      · have heq : pollLoop polls i (r + 1) sp =
            (1, true, if (polls i).code = 200 then some (polls i) else sp) := by
          simp [pollLoop, hg]
        rw [heq]
        refine ⟨by omega, ?_, ?_, ?_⟩
        · intro j hj; omega
        · simp [hg]
        · intro h; cases h
      · set P := pollLoop polls (i + 1) r
            (if (polls i).code = 200 then some (polls i) else sp) with hPdef
        have heq : pollLoop polls i (r + 1) sp = (P.1 + 1, P.2.1, P.2.2) := by
          rw [hPdef]
          simp [pollLoop, hg]
        obtain ⟨ih1, ih2, ih3, ih4⟩ :=
          ih (i + 1) (if (polls i).code = 200 then some (polls i) else sp)
        rw [← hPdef] at ih1 ih2 ih3 ih4
        rw [heq]
        refine ⟨by omega, ?_, ?_, ?_⟩
        · intro j hj
          cases j with
          | zero => simpa using hg
          | succ j' =>
              have harith : i + (j' + 1) = i + 1 + j' := by omega
              rw [harith]
              exact ih2 j' (by omega)
        · constructor
          · intro hd
            obtain ⟨hp, hgood⟩ := ih3.mp hd
            refine ⟨by omega, ?_⟩
            have harith : i + (P.1 + 1 - 1) = i + 1 + (P.1 - 1) := by omega
            rw [harith]
            exact hgood
          · rintro ⟨_, hgood⟩
            by_cases hz : P.1 = 0
            · exfalso
              rw [hz] at hgood
              simp at hgood
              exact hg hgood
            · refine ih3.mpr ⟨by omega, ?_⟩
              have harith : i + (P.1 + 1 - 1) = i + 1 + (P.1 - 1) := by omega
              rw [harith] at hgood
              exact hgood
        · intro hd
          rw [ih4 hd]

/-! ### Claim C7 -/

/-- C7: once `completion_with_context` reaches the polling phase, it issues
at most `poll_attempts` status requests, stops polling early exactly at the
first response with HTTP 200 and `status` 0 or 2, afterwards performs exactly
one result-fetch request, and the returned `ok` is true exactly when the
fetch returns HTTP 200. -/
theorem completion_with_context_polling (cfg : CwcConfig) (pollAttempts : Nat)
    (hreach : (completionWithContext cfg pollAttempts).reachedPoll = true) :
    (completionWithContext cfg pollAttempts).pollCount ≤ pollAttempts ∧
    (completionWithContext cfg pollAttempts).fetchCount = 1 ∧
    ((completionWithContext cfg pollAttempts).ok = true ↔ cfg.fetchCode = 200) ∧
    (∀ j, j + 1 < (completionWithContext cfg pollAttempts).pollCount →
      ¬ goodStatus (cfg.polls j)) ∧
    ((completionWithContext cfg pollAttempts).done = true ↔
      0 < (completionWithContext cfg pollAttempts).pollCount ∧
      goodStatus (cfg.polls ((completionWithContext cfg pollAttempts).pollCount - 1))) ∧
    ((completionWithContext cfg pollAttempts).done = false →
      (completionWithContext cfg pollAttempts).pollCount = pollAttempts) := by
  have hform : completionWithContext cfg pollAttempts =
      ⟨decide (cfg.fetchCode = 200), (pollLoop cfg.polls 0 pollAttempts none).1, 1,
        (pollLoop cfg.polls 0 pollAttempts none).2.1, true⟩ := by
    unfold completionWithContext at hreach ⊢
    by_cases hb : cfg.baseOk = false
    · rw [if_pos hb] at hreach; simp at hreach
    · rw [if_neg hb] at hreach ⊢
      by_cases hk : cfg.keyOk = false
      · rw [if_pos hk] at hreach; simp at hreach
      · rw [if_neg hk] at hreach ⊢
        by_cases hi : ¬(cfg.initCode = 200 ∨ cfg.initCode = 201)
        · rw [if_pos hi] at hreach; simp at hreach
        · rw [if_neg hi] at hreach ⊢
          by_cases hu : cfg.uuidFound = false
          · rw [if_pos hu] at hreach; simp at hreach
          · rw [if_neg hu]
  obtain ⟨h1, h2, h3, h4⟩ := pollLoop_spec cfg.polls pollAttempts 0 none
  rw [hform]
  refine ⟨h1, rfl, by simp, ?_, ?_, h4⟩
  · intro j hj
    simpa using h2 j hj
  · simpa using h3

/-- Witness for C7: the first status response is HTTP 200 with `status = 2`,
so polling stops after one request; the fetch succeeds. -/
theorem completion_with_context_polling_witness :
    (completionWithContext
      ⟨true, true, 200, true, fun _ => ⟨200, some 2⟩, 200⟩ 12).pollCount ≤ 12 ∧
    (completionWithContext
      ⟨true, true, 200, true, fun _ => ⟨200, some 2⟩, 200⟩ 12).fetchCount = 1 ∧
    (completionWithContext
      ⟨true, true, 200, true, fun _ => ⟨200, some 2⟩, 200⟩ 12).ok = true := by
  have h := completion_with_context_polling
    ⟨true, true, 200, true, fun _ => ⟨200, some 2⟩, 200⟩ 12 (by decide)
  exact ⟨h.1, h.2.1, (h.2.2.1).mpr rfl⟩

/-! ### `_chunk_text_spans` (`ingestion_tools.py`) -/

/-- One chunk span; `stop` is the Python dict's `"end"` key. -/
structure Span where
  text : List Char
  start : Nat
  stop : Nat
deriving DecidableEq

/-- Python slice `t[s:e]` for `0 ≤ s ≤ e`. -/
def sliceL (t : List Char) (s e : Nat) : List Char := (t.take e).drop s

/-- `window.rfind("\n")`: index of the last newline, if any. -/
def rfindNl : List Char → Option Nat
  | [] => none
  | c :: rest =>
    match rfindNl rest with
    | some j => some (j + 1)
    | none => if c = '\n' then some 0 else none

/-- Number of leading `\r`/`\n` characters. -/
def countNl : List Char → Nat
  | [] => 0
  | c :: rest => if c = '\r' ∨ c = '\n' then countNl rest + 1 else 0

/-- The inner `while pos < n and t[pos] in "\r\n": pos += 1` loop. -/
def skipNl (t : List Char) (pos : Nat) : Nat := pos + countNl (t.drop pos)

/-- The cut applied to the character budget: `end = min(pos+max_chars, n)`,
then moved back to the last in-window newline when that newline sits at
offset `≥ 200`. -/
def chunkEnd (t : List Char) (maxc pos : Nat) : Nat :=
  if min (pos + maxc) t.length < t.length then
    match rfindNl (sliceL t pos (min (pos + maxc) t.length)) with
    | some cut => if 200 ≤ cut then pos + cut else min (pos + maxc) t.length
    | none => min (pos + maxc) t.length
  else min (pos + maxc) t.length

/-- The `while pos < n` loop of `_chunk_text_spans`, with explicit fuel;
`none` means the fuel ran out (never happens, see `chunkLoop_spec`). -/
def chunkLoop (t : List Char) (maxc : Nat) : Nat → Nat → Option (List Span)
  | 0, _ => none
  | fuel + 1, pos =>
    if pos < t.length then
      let e := chunkEnd t maxc pos
      let chunk := stripChars (sliceL t pos e)
      match chunkLoop t maxc fuel (skipNl t e) with
      | none => none
      | some spans =>
          some (if chunk = [] then spans else ⟨chunk, pos, e⟩ :: spans)
    else some []

/-- `_chunk_text_spans` from `ingestion_tools.py`. -/
def chunk_text_spans (text : List Char) (maxc : Nat) : Option (List Span) :=
  let t := stripChars text
  if t = [] then some []
  else if t.length ≤ maxc then some [⟨t, 0, t.length⟩]
  else chunkLoop t maxc (t.length + 1) 0

theorem rfindNl_lt_length : ∀ {w : List Char} {j : Nat}, rfindNl w = some j → j < w.length := by
  intro w
  induction w with
  | nil => intro j h; simp [rfindNl] at h
  | cons c rest ih =>
      intro j h
      simp only [rfindNl] at h
      cases hr : rfindNl rest with
      | some j' =>
          rw [hr] at h
          simp at h
          have := ih hr
          simp [← h]
          omega
      | none =>
          rw [hr] at h
          by_cases hc : c = '\n'
          · rw [if_pos hc] at h
            simp at h
            simp [← h]
          · rw [if_neg hc] at h; cases h

theorem length_sliceL (t : List Char) (s e : Nat) :
    (sliceL t s e).length = min e t.length - s := by
  simp [sliceL]

theorem dropTrailWs_ne_nil : ∀ {l : List Char},
    (∃ c ∈ l, isWs c = false) → dropTrailWs l ≠ [] := by
  intro l
  induction l with
  | nil => rintro ⟨c, hc, _⟩; simp at hc
  | cons c rest ih =>
      rintro ⟨d, hd, hdw⟩
      rw [dropTrailWs_eq]
      split
      · rename_i hcond
        rcases List.mem_cons.mp hd with h | h
        · subst h; rw [hdw] at hcond; simp at hcond
        · exact absurd hcond.1 (ih ⟨d, h, hdw⟩)
      · simp

theorem stripChars_ne_nil_of_head {c : Char} {rest : List Char}
    (h : isWs c = false) : stripChars (c :: rest) ≠ [] := by
  unfold stripChars
  rw [List.dropWhile_cons, if_neg (by simp [h])]
  exact dropTrailWs_ne_nil ⟨c, List.mem_cons_self _ _, h⟩

theorem dropTrailWs_length_le : ∀ (l : List Char), (dropTrailWs l).length ≤ l.length := by
  intro l
  induction l with
  | nil => simp [dropTrailWs]
  | cons c rest ih =>
      rw [dropTrailWs_eq]
      split
      · simp
      · simpa using ih

theorem stripChars_length_le (l : List Char) : (stripChars l).length ≤ l.length := by
  unfold stripChars
  calc (dropTrailWs (l.dropWhile isWs)).length ≤ (l.dropWhile isWs).length :=
        dropTrailWs_length_le _
    _ ≤ l.length := (List.dropWhile_sublist _).length_le

theorem chunkEnd_gt (t : List Char) (maxc pos : Nat) (hmax : 1 ≤ maxc)
    (hpos : pos < t.length) : pos < chunkEnd t maxc pos := by
  unfold chunkEnd
  split
  · cases hr : rfindNl (sliceL t pos (min (pos + maxc) t.length)) with
    | some cut =>
        by_cases hc : 200 ≤ cut
        · simp only [hr, if_pos hc]; omega
        · simp only [hr, if_neg hc]; omega
    | none => simp only [hr]; omega
  · omega

theorem chunkEnd_le (t : List Char) (maxc pos : Nat) :
    chunkEnd t maxc pos ≤ t.length := by
  unfold chunkEnd
  split
  · rename_i hlt
    cases hr : rfindNl (sliceL t pos (min (pos + maxc) t.length)) with
    | some cut =>
        have hcut := rfindNl_lt_length hr
        rw [length_sliceL] at hcut
        by_cases hc : 200 ≤ cut
        · simp only [hr, if_pos hc]; omega
        · simp only [hr, if_neg hc]; omega
    | none => simp only [hr]; omega
  · omega

theorem chunkEnd_sub_le (t : List Char) (maxc pos : Nat) :
    chunkEnd t maxc pos - pos ≤ maxc := by
  unfold chunkEnd
  split
  · cases hr : rfindNl (sliceL t pos (min (pos + maxc) t.length)) with
    | some cut =>
        have hcut := rfindNl_lt_length hr
        rw [length_sliceL] at hcut
        by_cases hc : 200 ≤ cut
        · simp only [hr, if_pos hc]; omega
        · simp only [hr, if_neg hc]; omega
    | none => simp only [hr]; omega
  · omega

theorem skipNl_ge (t : List Char) (pos : Nat) : pos ≤ skipNl t pos := by
  unfold skipNl; omega

theorem sliceL_cons (t : List Char) (pos e : Nat) (h1 : pos < e) (h2 : e ≤ t.length) :
    ∃ hp : pos < t.length,
      sliceL t pos e = t.get ⟨pos, hp⟩ :: sliceL t (pos + 1) e := by
  have hp : pos < t.length := by omega
  refine ⟨hp, ?_⟩
  unfold sliceL
  have hlen : pos < (t.take e).length := by
    rw [List.length_take]; omega
  rw [List.drop_eq_getElem_cons hlen]
  congr 1
  rw [List.getElem_take]
  simp [List.get_eq_getElem]

theorem noLeadWs_get_zero {l : List Char} (h : noLeadWs l) (hlt : 0 < l.length) :
    isWs (l.get ⟨0, hlt⟩) = false := by
  cases l with
  | nil => simp at hlt
  | cons c rest => exact h

theorem chunkLoop_spec (t : List Char) (maxc : Nat) (hmax : 1 ≤ maxc) :
    ∀ (fuel pos : Nat), t.length - pos < fuel →
      ∃ spans, chunkLoop t maxc fuel pos = some spans ∧
        (∀ sp ∈ spans, pos ≤ sp.start ∧ sp.start < sp.stop ∧ sp.stop ≤ t.length ∧
          sp.text = stripChars (sliceL t sp.start sp.stop) ∧ sp.text ≠ [] ∧
          sp.text.length ≤ maxc) ∧
        spans.Pairwise (fun a b => a.stop ≤ b.start) ∧
        (∀ hlt : pos < t.length, isWs (t.get ⟨pos, hlt⟩) = false → spans ≠ []) := by
  intro fuel
  induction fuel with
  | zero => intro pos h; omega
  | succ f ih =>
      intro pos hfuel
      by_cases hpos : pos < t.length
      · have hgt := chunkEnd_gt t maxc pos hmax hpos
        have hle := chunkEnd_le t maxc pos
        have hsub := chunkEnd_sub_le t maxc pos
        have hskip := skipNl_ge t (chunkEnd t maxc pos)
        obtain ⟨spans', hrec, hmem, hpw, _⟩ :=
          ih (skipNl t (chunkEnd t maxc pos)) (by omega)
        obtain ⟨hp, hslice⟩ := sliceL_cons t pos (chunkEnd t maxc pos) hgt (by omega)
        refine ⟨if stripChars (sliceL t pos (chunkEnd t maxc pos)) = [] then spans'
          else ⟨stripChars (sliceL t pos (chunkEnd t maxc pos)), pos, chunkEnd t maxc pos⟩ :: spans',
          ?_, ?_, ?_, ?_⟩
        · simp only [chunkLoop, if_pos hpos, hrec]
        · intro sp hsp
          by_cases hchunk : stripChars (sliceL t pos (chunkEnd t maxc pos)) = []
          · rw [if_pos hchunk] at hsp
            obtain ⟨h1, h2⟩ := hmem sp hsp
            exact ⟨by omega, h2⟩
          · rw [if_neg hchunk] at hsp
            rcases List.mem_cons.mp hsp with h | h
            · subst h
              refine ⟨le_refl _, hgt, hle, rfl, hchunk, ?_⟩
              calc (stripChars (sliceL t pos (chunkEnd t maxc pos))).length
                  ≤ (sliceL t pos (chunkEnd t maxc pos)).length := stripChars_length_le _
                _ ≤ maxc := by rw [length_sliceL]; omega
            · obtain ⟨h1, h2⟩ := hmem sp h
              exact ⟨by omega, h2⟩
        · by_cases hchunk : stripChars (sliceL t pos (chunkEnd t maxc pos)) = []
          · rw [if_pos hchunk]; exact hpw
          · rw [if_neg hchunk]
            refine List.Pairwise.cons ?_ hpw
            intro sp hsp
            have := (hmem sp hsp).1
            simpa using by omega
        · intro hlt hws
          by_cases hchunk : stripChars (sliceL t pos (chunkEnd t maxc pos)) = []
          · exfalso
            rw [hslice] at hchunk
            have : t.get ⟨pos, hp⟩ = t.get ⟨pos, hlt⟩ := rfl
            rw [this] at hchunk
            exact stripChars_ne_nil_of_head hws hchunk
          · rw [if_neg hchunk]; simp
      · refine ⟨[], ?_, by simp, by simp, ?_⟩
        · simp [chunkLoop, hpos]
        · intro hlt; omega

/-! ### Claim C6 -/

/-- C6: for text whose stripped form is non-empty and `max_chars ≥ 1`,
`_chunk_text_spans` terminates (the fuelled loop returns `some`) with a
non-empty span list; each span satisfies `start < end ≤ length` of the
stripped text, each chunk text is the stripped slice at its offsets, is
non-empty and has length at most `max_chars`, and consecutive spans do not
overlap (`end ≤` next `start`). -/
theorem chunk_text_spans_correct (text : List Char) (maxc : Nat)
    (hmax : 1 ≤ maxc) (hne : stripChars text ≠ []) :
    ∃ spans, chunk_text_spans text maxc = some spans ∧ spans ≠ [] ∧
      (∀ sp ∈ spans, sp.start < sp.stop ∧ sp.stop ≤ (stripChars text).length ∧
        sp.text ≠ [] ∧ sp.text.length ≤ maxc) ∧
      spans.Pairwise (fun a b => a.stop ≤ b.start) := by
  unfold chunk_text_spans
  rw [if_neg hne]
  by_cases hlen : (stripChars text).length ≤ maxc
  · rw [if_pos hlen]
    refine ⟨[⟨stripChars text, 0, (stripChars text).length⟩], rfl, by simp, ?_, by simp⟩
    intro sp hsp
    simp only [List.mem_singleton] at hsp
    subst hsp
    refine ⟨?_, le_refl _, hne, hlen⟩
    cases h : stripChars text with
    | nil => exact absurd h hne
    | cons c rest => simp [h]
  · rw [if_neg hlen]
    obtain ⟨spans, hloop, hmem, hpw, hne'⟩ :=
      chunkLoop_spec (stripChars text) maxc hmax ((stripChars text).length + 1) 0
        (by omega)
    have hlt : 0 < (stripChars text).length := List.length_pos.mpr hne
    have hhead : isWs ((stripChars text).get ⟨0, hlt⟩) = false :=
      noLeadWs_get_zero (stripChars_noLeadWs text) hlt
    refine ⟨spans, hloop, hne' hlt hhead, ?_, hpw⟩
    intro sp hsp
    obtain ⟨_, h2, h3, _, h5, h6⟩ := hmem sp hsp
    exact ⟨h2, h3, h5, h6⟩

/-- Witness for C6 on the text `" ab ndef "` with `max_chars = 2`. -/
theorem chunk_text_spans_witness :
    1 ≤ 2 ∧ stripChars "  ab cd ".toList ≠ [] ∧
    ∃ spans, chunk_text_spans "  ab cd ".toList 2 = some spans ∧ spans ≠ [] := by
  obtain ⟨spans, h1, h2, _⟩ :=
    chunk_text_spans_correct "  ab cd ".toList 2 (by decide) (by decide)
  exact ⟨by decide, by decide, spans, h1, h2⟩

/-! ### Brand evidence (`treatment_tools.py`) -/

/-- `_normalize_brand_token`: strip, then collapse whitespace runs. -/
def normalizeBrandToken (s : List Char) : List Char := collapseWs (stripChars s)

/-- `_looks_like_brand_token`.  `Char.isAlphanum` stands in for Python's
`str.isalnum` (they agree on ASCII). -/
def looksLikeBrandToken (s : List Char) : Bool :=
  let t := normalizeBrandToken s
  if t = [] then false
  else if t.length < 2 ∨ 40 < t.length then false
  else if '\n' ∈ t ∨ '\t' ∈ t then false
  else if 2 < t.count ' ' then false
  else if 2 < (t.filter (fun ch =>
      !(ch.isAlphanum || ch = ' ' || ch = '.' || ch = '-' || ch = '&' ||
        ch = '\'' || ch = '/'))).length then false
  else true

/-- Structural prefix test on character lists. -/
def isPrefixL : List Char → List Char → Bool
  | [], _ => true
  | _ :: _, [] => false
  | a :: as, b :: bs => a = b && isPrefixL as bs

/-- `hay.find(needle)`: index of the first occurrence, if any. -/
def findIdxFrom : List Char → List Char → Option Nat
  | [], needle => if needle = [] then some 0 else none
  | c :: t, needle =>
    if isPrefixL needle (c :: t) then some 0
    else (findIdxFrom t needle).map (· + 1)

/-- Python `needle in hay` (substring containment). -/
def containsSub (hay needle : List Char) : Bool := (findIdxFrom hay needle).isSome

/-- `_find_first_occurrence`: case-insensitive first occurrence with its
end offset. -/
def find_first_occurrence (text needle : List Char) : Option (Nat × Nat) :=
  if text = [] ∨ needle = [] then none
  else
    match findIdxFrom (lowerL text) (lowerL needle) with
    | none => none
    | some i => some (i, i + needle.length)

/-- `_extract_window`: `text[max(0, start-pad) : min(len, end+pad)].strip()`. -/
def extractWindow (text : List Char) (s e pad : Nat) : List Char :=
  if text = [] then []
  else stripChars (sliceL text (s - pad) (min text.length (e + pad)))

/-- One retrieved Asimov chunk (`key` / `content` of an item). -/
structure Chunk where
  key : List Char
  content : List Char
deriving DecidableEq

/-- The location pack built by `_locate_evidence_in_chunks`. -/
structure LocInfo where
  chunk_key : List Char
  chunk_index_from_retrieval : Nat
  chunk_offset_start : Nat
  chunk_offset_end : Nat
deriving DecidableEq

/-- Loop of `_locate_evidence_in_chunks` (the index counts all items,
including skipped ones, as `enumerate` does). -/
def locLoop (ev : List Char) : List Chunk → Nat → Option LocInfo
  | [], _ => none
  | item :: rest, idx =>
    if item.key = [] ∨ item.content = [] then locLoop ev rest (idx + 1)
    else
      match findIdxFrom (lowerL item.content) (lowerL ev) with
      | some pos => some ⟨item.key, idx, pos, pos + ev.length⟩
      | none => locLoop ev rest (idx + 1)

/-- `_locate_evidence_in_chunks`. -/
def locateEvidenceInChunks (evidence : List Char) (items : List Chunk) :
    Option LocInfo :=
  if stripChars evidence = [] ∨ items = [] then none
  else locLoop (stripChars evidence) items 0

/-- One element of the `brand_evidence` input list, after the `str(... or "")`
coercions of the source (`[]` stands for a missing/empty field). -/
structure BrandItem where
  brand : List Char
  text : List Char
  confidence : List Char
  source : Option (List Char)
  mentioned_as : Option (List Char)
deriving DecidableEq

/-- An enriched evidence pack; `μ` is the (opaque) chunk-metadata payload
copied verbatim from the ingestor index. -/
structure EvPack (μ : Type) where
  brand : List Char
  mentioned_as : List Char
  confidence : List Char
  text : List Char
  source : Option (List Char)
  loc : Option LocInfo
  chunk_metadata : Option μ
deriving DecidableEq

/-- The result dict of `_postprocess_brand_evidence`. -/
structure PostResult (μ : Type) where
  brand_mentions : List (List Char)
  brand_mentions_uncertain : List (List Char)
  brand_evidence : List (EvPack μ)
deriving DecidableEq

/-- Exact-key association lookup (Python `dict` access). -/
def lookupAssoc {β : Type} : List (List Char × β) → List Char → Option β
  | [], _ => none
  | (k, v) :: rest, key => if k = key then some v else lookupAssoc rest key

/-- `str(item.get("confidence") or "low").strip().lower()`, forced into
`{"high", "low"}`. -/
def procConf (c : List Char) : List Char :=
  if lowerL (stripChars (if c = [] then "low".toList else c)) = "high".toList ∨
      lowerL (stripChars (if c = [] then "low".toList else c)) = "low".toList then
    lowerL (stripChars (if c = [] then "low".toList else c))
  else "low".toList

/-- The evidence-guarantee step: when the cleaned text is non-empty and the
evidence text is not a case-insensitive substring of it, fall back to a
window around the brand's first occurrence (or drop the item when the brand
does not occur either). -/
def evTextOptD (cleaned brandRaw evText0 : List Char) : Option (List Char) :=
  if cleaned ≠ [] ∧ containsSub (lowerL cleaned) (lowerL evText0) = false then
    match find_first_occurrence cleaned brandRaw with
    | none => none
    | some se => some ((extractWindow cleaned se.1 se.2 90).take 600)
  else some evText0

/-- Assembly of the `ev_pack` dict, together with the mapped brand and the
confidence used for classification. -/
def mkPack {μ : Type} (aliases : List (List Char × List Char))
    (asimovItems : List Chunk) (ingestorIdx : List (List Char × μ))
    (item : BrandItem) (brandRaw conf evText : List Char) :
    EvPack μ × List Char × List Char :=
  (⟨(lookupAssoc aliases brandRaw).getD brandRaw,
    (match item.mentioned_as with
     | some m => if m = [] then brandRaw else m
     | none => brandRaw),
    conf, evText.take 600, item.source,
    (if asimovItems ≠ [] then locateEvidenceInChunks (evText.take 600) asimovItems
     else none),
    ((if asimovItems ≠ [] then locateEvidenceInChunks (evText.take 600) asimovItems
      else none).bind (fun l => lookupAssoc ingestorIdx l.chunk_key))⟩,
   (lookupAssoc aliases brandRaw).getD brandRaw, conf)

/-- The body of the `for item in brand_evidence` loop for one item:
`none` when the item is skipped (`continue`), otherwise the evidence pack,
the alias-mapped brand, and the normalized confidence. -/
def processItem {μ : Type} (aliases : List (List Char × List Char))
    (cleaned : List Char) (asimovItems : List Chunk)
    (ingestorIdx : List (List Char × μ)) (item : BrandItem) :
    Option (EvPack μ × List Char × List Char) :=
  if stripChars (normalizeBrandToken item.brand) = [] ∨ stripChars item.text = [] then
    none
  else if looksLikeBrandToken (stripChars (normalizeBrandToken item.brand)) = false then
    none
  else
    match evTextOptD cleaned (stripChars (normalizeBrandToken item.brand))
        (stripChars item.text) with
    | none => none
    | some evText =>
        some (mkPack aliases asimovItems ingestorIdx item
          (stripChars (normalizeBrandToken item.brand))
          (procConf item.confidence) evText)

/-- The accumulation loop of `_postprocess_brand_evidence`: returns
(enriched, confirmed, uncertain) in input order. -/
def postprocessLoop {μ : Type} (aliases : List (List Char × List Char))
    (whitelist : List (List Char)) (cleaned : List Char)
    (asimovItems : List Chunk) (ingestorIdx : List (List Char × μ)) :
    List BrandItem → List (EvPack μ) × List (List Char) × List (List Char)
  | [] => ([], [], [])
  | item :: rest =>
    let acc := postprocessLoop aliases whitelist cleaned asimovItems ingestorIdx rest
    match processItem aliases cleaned asimovItems ingestorIdx item with
    | none => acc
    | some pmc =>
        if whitelist ≠ [] then
          if pmc.2.1 ∈ whitelist ∧ pmc.2.2 = "high".toList then
            (pmc.1 :: acc.1, pmc.2.1 :: acc.2.1, acc.2.2)
          else (pmc.1 :: acc.1, acc.2.1, pmc.2.1 :: acc.2.2)
        else if pmc.2.2 = "high".toList then
          (pmc.1 :: acc.1, pmc.2.1 :: acc.2.1, acc.2.2)
        else (pmc.1 :: acc.1, acc.2.1, pmc.2.1 :: acc.2.2)

/-- `_postprocess_brand_evidence`. -/
def postprocessBrandEvidence {μ : Type} (aliases : List (List Char × List Char))
    (whitelist : List (List Char)) (cleaned : List Char)
    (asimovItems : List Chunk) (ingestorIdx : List (List Char × μ))
    (brandEvidence : List BrandItem) : PostResult μ :=
  let acc := postprocessLoop aliases whitelist cleaned asimovItems ingestorIdx brandEvidence
  let confirmed := dedupeKeepOrder acc.2.1
  let uncertain :=
    dedupeKeepOrder (acc.2.2.filter (fun x => x ∉ confirmed.map lowerL))
  let allowed := (confirmed ++ uncertain).map lowerL
  let enriched := acc.1.filter (fun e => lowerL (stripChars e.brand) ∈ allowed)
  ⟨confirmed, uncertain, enriched⟩

/-! ### Helper lemmas for the brand-evidence theorems -/

theorem stripChars_idem (l : List Char) : stripChars (stripChars l) = stripChars l :=
  stripChars_id (stripChars_noLeadWs l) (stripChars_noTrailWs l)

theorem lowerL_ne_nil {l : List Char} (h : l ≠ []) : lowerL l ≠ [] := by
  simpa [lowerL, List.map_eq_nil_iff] using h

theorem dedupe_singleton {x : List Char} (h : dedupeKey x ≠ []) :
    dedupeKeepOrder [x] = [x] := by
  simp [dedupeKeepOrder, dedupeAux, h]

theorem dedupe_mem {x : List Char} {seq : List (List Char)}
    (h : x ∈ dedupeKeepOrder seq) : x ∈ seq :=
  (dedupeAux_sublist seq []).subset h

theorem procConf_cases (c : List Char) :
    procConf c = "high".toList ∨ procConf c = "low".toList := by
  unfold procConf
  by_cases h : lowerL (stripChars (if c = [] then "low".toList else c)) = "high".toList ∨
      lowerL (stripChars (if c = [] then "low".toList else c)) = "low".toList
  · rw [if_pos h]; exact h
  · rw [if_neg h]; exact Or.inr rfl

theorem lookupAssoc_mem {β : Type} :
    ∀ {l : List (List Char × β)} {k : List Char} {v : β},
      lookupAssoc l k = some v → (k, v) ∈ l := by
  intro l
  induction l with
  | nil => intro k v h; simp [lookupAssoc] at h
  | cons p rest ih =>
      intro k v h
      rw [show lookupAssoc (p :: rest) k =
        if p.1 = k then some p.2 else lookupAssoc rest k from rfl] at h
      split at h
      · rename_i he
        simp at h
        have hp : p = (k, v) := by
          obtain ⟨a, b⟩ := p
          simp at he h
          rw [he, h]
        rw [hp]
        exact List.mem_cons_self _ _
      · exact List.mem_cons_of_mem _ (ih h)

theorem isPrefixL_length : ∀ {n h : List Char}, isPrefixL n h = true →
    n.length ≤ h.length := by
  intro n
  induction n with
  | nil => intro h _; simp
  | cons a as ih =>
      intro h hp
      cases h with
      | nil => simp [isPrefixL] at hp
      | cons b bs =>
          simp only [isPrefixL, Bool.and_eq_true, decide_eq_true_eq] at hp
          simpa using ih (by simpa using hp.2)

theorem isPrefixL_cons {a : Char} {as h : List Char}
    (hp : isPrefixL (a :: as) h = true) :
    ∃ t, h = a :: t ∧ isPrefixL as t = true := by
  cases h with
  | nil => simp [isPrefixL] at hp
  | cons b bs =>
      simp only [isPrefixL, Bool.and_eq_true, decide_eq_true_eq] at hp
      exact ⟨bs, by rw [hp.1], hp.2⟩

theorem findIdxFrom_some : ∀ {h n : List Char} {i : Nat},
    findIdxFrom h n = some i →
    isPrefixL n (h.drop i) = true ∧ i + n.length ≤ h.length := by
  intro h
  induction h with
  | nil =>
      intro n i hf
      unfold findIdxFrom at hf
      split at hf
      · rename_i he
        simp at hf
        subst he
        simp [← hf, isPrefixL]
      · cases hf
  | cons c t ih =>
      intro n i hf
      unfold findIdxFrom at hf
      split at hf
      · rename_i hp
        simp at hf
        subst hf
        exact ⟨hp, by simpa using isPrefixL_length hp⟩
      · simp only [Option.map_eq_some'] at hf
        obtain ⟨j, hj, hji⟩ := hf
        obtain ⟨h1, h2⟩ := ih hj
        subst hji
        constructor
        · simpa using h1
        · simpa using by omega

theorem mem_dropWhile_not_ws : ∀ {l : List Char} {c : Char},
    c ∈ l → isWs c = false → c ∈ l.dropWhile isWs := by
  intro l
  induction l with
  | nil => intro c hc _; simp at hc
  | cons a t ih =>
      intro c hc hcw
      by_cases ha : isWs a = true
      · rw [List.dropWhile_cons, if_pos ha]
        rcases List.mem_cons.mp hc with h | h
        · subst h; rw [hcw] at ha; cases ha
        · exact ih h hcw
      · rw [List.dropWhile_cons, if_neg ha]
        exact hc

theorem stripChars_ne_nil_of_mem {l : List Char} {c : Char}
    (hc : c ∈ l) (hw : isWs c = false) : stripChars l ≠ [] := by
  unfold stripChars
  exact dropTrailWs_ne_nil ⟨c, mem_dropWhile_not_ws hc hw, hw⟩

theorem mem_sliceL (t : List Char) (a s e : Nat) (hs1 : a ≤ s) (hs2 : s < e)
    (hs3 : e ≤ t.length) (hlt : s < t.length) :
    t.get ⟨s, hlt⟩ ∈ sliceL t a e := by
  have hidx : s - a < (sliceL t a e).length := by
    rw [length_sliceL]; omega
  have hval : (sliceL t a e).get ⟨s - a, hidx⟩ = t.get ⟨s, hlt⟩ := by
    simp only [sliceL, List.get_eq_getElem, List.getElem_drop, List.getElem_take]
    congr 1
    omega
  rw [← hval]
  exact List.get_mem _ _ _

theorem find_first_some {text needle : List Char} {s e : Nat}
    (h : find_first_occurrence text needle = some (s, e)) :
    text ≠ [] ∧ needle ≠ [] ∧ findIdxFrom (lowerL text) (lowerL needle) = some s ∧
    e = s + needle.length := by
  unfold find_first_occurrence at h
  split at h
  · cases h
  · rename_i hcond
    push_neg at hcond
    cases hfi : findIdxFrom (lowerL text) (lowerL needle) with
    | none => rw [hfi] at h; cases h
    | some i =>
        rw [hfi] at h
        have h' : (i, i + needle.length) = (s, e) := by injection h
        have hs : i = s := congrArg Prod.fst h'
        have he2 : i + needle.length = e := congrArg Prod.snd h'
        subst hs
        exact ⟨hcond.1, hcond.2, rfl, he2.symm⟩

theorem extractWindow_ne_nil {cleaned brandRaw : List Char} {s e : Nat}
    (hfind : find_first_occurrence cleaned brandRaw = some (s, e))
    (hlead : noLeadWs brandRaw) :
    extractWindow cleaned s e 90 ≠ [] := by
  obtain ⟨htext, hneedle, hidx, hE⟩ := find_first_some hfind
  obtain ⟨b0, bs, hbr⟩ : ∃ b0 bs, brandRaw = b0 :: bs := by
    cases brandRaw with
    | nil => exact absurd rfl hneedle
    | cons b0 bs => exact ⟨b0, bs, rfl⟩
  have hb0 : isWs b0 = false := by rw [hbr] at hlead; exact hlead
  obtain ⟨hpre, hlen⟩ := findIdxFrom_some hidx
  have hlenlow : (lowerL brandRaw).length = brandRaw.length := by
    simp [lowerL]
  have hlencl : (lowerL cleaned).length = cleaned.length := by
    simp [lowerL]
  have hbl : 1 ≤ brandRaw.length := by rw [hbr]; simp
  have hslt : s < cleaned.length := by omega
  have hs' : s < (lowerL cleaned).length := by omega
  have hpre' : isPrefixL (Char.toLower b0 :: lowerL bs) ((lowerL cleaned).drop s) = true := by
    rw [hbr] at hpre
    simpa [lowerL] using hpre
  obtain ⟨tl, htl, _⟩ := isPrefixL_cons hpre'
  rw [List.drop_eq_getElem_cons hs'] at htl
  injection htl with hhead _
  have hgetmap : (lowerL cleaned).get ⟨s, hs'⟩ = Char.toLower (cleaned.get ⟨s, hslt⟩) := by
    simp [lowerL, List.get_eq_getElem]
  have hwsc : isWs (cleaned.get ⟨s, hslt⟩) = false := by
    have h2 : Char.toLower (cleaned.get ⟨s, hslt⟩) = Char.toLower b0 := by
      rw [← hgetmap, List.get_eq_getElem]
      exact hhead
    rw [← isWs_toLower, h2, isWs_toLower]
    exact hb0
  unfold extractWindow
  rw [if_neg htext]
  have hmem : cleaned.get ⟨s, hslt⟩ ∈ sliceL cleaned (s - 90) (min cleaned.length (e + 90)) := by
    refine mem_sliceL cleaned (s - 90) s (min cleaned.length (e + 90)) (by omega) ?_
      (by omega) hslt
    omega
  exact stripChars_ne_nil_of_mem hmem hwsc

theorem processItem_none_of_unfound {μ : Type} (aliases : List (List Char × List Char))
    (cleaned : List Char) (asimovItems : List Chunk)
    (ingestorIdx : List (List Char × μ)) (item : BrandItem)
    (hclean : cleaned ≠ [])
    (hnf : containsSub (lowerL cleaned) (lowerL (stripChars item.text)) = false)
    (hfind : find_first_occurrence cleaned
      (stripChars (normalizeBrandToken item.brand)) = none) :
    processItem aliases cleaned asimovItems ingestorIdx item = none := by
  unfold processItem
  by_cases h1 : stripChars (normalizeBrandToken item.brand) = [] ∨ stripChars item.text = []
  · rw [if_pos h1]
  · rw [if_neg h1]
    by_cases h2 : looksLikeBrandToken (stripChars (normalizeBrandToken item.brand)) = false
    · rw [if_pos h2]
    · rw [if_neg h2]
      have hopt : evTextOptD cleaned (stripChars (normalizeBrandToken item.brand))
          (stripChars item.text) = none := by
        unfold evTextOptD
        rw [if_pos ⟨hclean, hnf⟩, hfind]
      rw [hopt]

theorem postprocessLoop_removal {μ : Type} (aliases : List (List Char × List Char))
    (whitelist : List (List Char)) (cleaned : List Char) (asimovItems : List Chunk)
    (ingestorIdx : List (List Char × μ)) (item : BrandItem)
    (h : processItem aliases cleaned asimovItems ingestorIdx item = none) :
    ∀ (pre post : List BrandItem),
      postprocessLoop aliases whitelist cleaned asimovItems ingestorIdx (pre ++ item :: post) =
      postprocessLoop aliases whitelist cleaned asimovItems ingestorIdx (pre ++ post) := by
  intro pre
  induction pre with
  | nil =>
      intro post
      simp only [List.nil_append, postprocessLoop, h]
  | cons p pre' ih =>
      intro post
      simp only [List.cons_append, postprocessLoop, List.append_eq, ih post]

theorem postprocess_removal {μ : Type} (aliases : List (List Char × List Char))
    (whitelist : List (List Char)) (cleaned : List Char) (asimovItems : List Chunk)
    (ingestorIdx : List (List Char × μ)) (item : BrandItem)
    (h : processItem aliases cleaned asimovItems ingestorIdx item = none)
    (pre post : List BrandItem) :
    postprocessBrandEvidence aliases whitelist cleaned asimovItems ingestorIdx
      (pre ++ item :: post) =
    postprocessBrandEvidence aliases whitelist cleaned asimovItems ingestorIdx
      (pre ++ post) := by
  unfold postprocessBrandEvidence
  rw [postprocessLoop_removal aliases whitelist cleaned asimovItems ingestorIdx item h pre post]

theorem processItem_some {μ : Type} {aliases : List (List Char × List Char)}
    {cleaned : List Char} {asimovItems : List Chunk}
    {ingestorIdx : List (List Char × μ)} {item : BrandItem}
    {p : EvPack μ × List Char × List Char}
    (h : processItem aliases cleaned asimovItems ingestorIdx item = some p) :
    ∃ evText,
      evTextOptD cleaned (stripChars (normalizeBrandToken item.brand))
        (stripChars item.text) = some evText ∧
      p = mkPack aliases asimovItems ingestorIdx item
        (stripChars (normalizeBrandToken item.brand)) (procConf item.confidence) evText ∧
      stripChars (normalizeBrandToken item.brand) ≠ [] ∧ stripChars item.text ≠ [] := by
  unfold processItem at h
  by_cases h1 : stripChars (normalizeBrandToken item.brand) = [] ∨ stripChars item.text = []
  · rw [if_pos h1] at h; cases h
  · rw [if_neg h1] at h
    by_cases h2 : looksLikeBrandToken (stripChars (normalizeBrandToken item.brand)) = false
    · rw [if_pos h2] at h; cases h
    · rw [if_neg h2] at h
      push_neg at h1
      cases hopt : evTextOptD cleaned (stripChars (normalizeBrandToken item.brand))
          (stripChars item.text) with
      | none => rw [hopt] at h; cases h
      | some evText =>
          rw [hopt] at h
          injection h with h
          exact ⟨evText, rfl, h.symm, h1.1, h1.2⟩

theorem evTextOptD_some_ne_nil {cleaned brandRaw evText0 evText : List Char}
    (h : evTextOptD cleaned brandRaw evText0 = some evText)
    (h0 : evText0 ≠ []) (hlead : noLeadWs brandRaw) :
    evText.take 600 ≠ [] := by
  unfold evTextOptD at h
  split at h
  · cases hf : find_first_occurrence cleaned brandRaw with
    | none => rw [hf] at h; cases h
    | some se =>
        rw [hf] at h
        injection h with h
        have hw : extractWindow cleaned se.1 se.2 90 ≠ [] :=
          extractWindow_ne_nil hf hlead
        rw [← h, List.take_take]
        simpa [List.take_eq_nil_iff] using hw
  · injection h with h
    rw [← h]
    simpa [List.take_eq_nil_iff] using h0

theorem mkPack_fst_brand {μ : Type} (aliases : List (List Char × List Char))
    (asimovItems : List Chunk) (ingestorIdx : List (List Char × μ))
    (item : BrandItem) (brandRaw conf evText : List Char) :
    (mkPack aliases asimovItems ingestorIdx item brandRaw conf evText).1.brand =
    (lookupAssoc aliases brandRaw).getD brandRaw := rfl

theorem mkPack_fst_text {μ : Type} (aliases : List (List Char × List Char))
    (asimovItems : List Chunk) (ingestorIdx : List (List Char × μ))
    (item : BrandItem) (brandRaw conf evText : List Char) :
    (mkPack aliases asimovItems ingestorIdx item brandRaw conf evText).1.text =
    evText.take 600 := rfl

theorem mkPack_snd_fst {μ : Type} (aliases : List (List Char × List Char))
    (asimovItems : List Chunk) (ingestorIdx : List (List Char × μ))
    (item : BrandItem) (brandRaw conf evText : List Char) :
    (mkPack aliases asimovItems ingestorIdx item brandRaw conf evText).2.1 =
    (lookupAssoc aliases brandRaw).getD brandRaw := rfl

theorem mkPack_snd_snd {μ : Type} (aliases : List (List Char × List Char))
    (asimovItems : List Chunk) (ingestorIdx : List (List Char × μ))
    (item : BrandItem) (brandRaw conf evText : List Char) :
    (mkPack aliases asimovItems ingestorIdx item brandRaw conf evText).2.2 = conf := rfl

theorem mapped_stripped {aliases : List (List Char × List Char)}
    (halias : ∀ p ∈ aliases, stripChars p.2 = p.2) {brandRaw : List Char}
    (hbr : stripChars brandRaw = brandRaw) :
    stripChars ((lookupAssoc aliases brandRaw).getD brandRaw) =
    (lookupAssoc aliases brandRaw).getD brandRaw := by
  cases hl : lookupAssoc aliases brandRaw with
  | none => simpa using hbr
  | some v => simpa using halias (brandRaw, v) (lookupAssoc_mem hl)

theorem postprocessLoop_cons_none {μ : Type} (aliases : List (List Char × List Char))
    (whitelist : List (List Char)) (cleaned : List Char) (asimovItems : List Chunk)
    (ingestorIdx : List (List Char × μ)) (item : BrandItem) (rest : List BrandItem)
    (h : processItem aliases cleaned asimovItems ingestorIdx item = none) :
    postprocessLoop aliases whitelist cleaned asimovItems ingestorIdx (item :: rest) =
    postprocessLoop aliases whitelist cleaned asimovItems ingestorIdx rest := by
  simp only [postprocessLoop, h]

theorem postprocessLoop_cons_some {μ : Type} (aliases : List (List Char × List Char))
    (whitelist : List (List Char)) (cleaned : List Char) (asimovItems : List Chunk)
    (ingestorIdx : List (List Char × μ)) (item : BrandItem) (rest : List BrandItem)
    (pmc : EvPack μ × List Char × List Char)
    (h : processItem aliases cleaned asimovItems ingestorIdx item = some pmc) :
    postprocessLoop aliases whitelist cleaned asimovItems ingestorIdx (item :: rest) =
      (if whitelist ≠ [] then
        if pmc.2.1 ∈ whitelist ∧ pmc.2.2 = "high".toList then
          (pmc.1 :: (postprocessLoop aliases whitelist cleaned asimovItems ingestorIdx rest).1,
           pmc.2.1 :: (postprocessLoop aliases whitelist cleaned asimovItems ingestorIdx rest).2.1,
           (postprocessLoop aliases whitelist cleaned asimovItems ingestorIdx rest).2.2)
        else
          (pmc.1 :: (postprocessLoop aliases whitelist cleaned asimovItems ingestorIdx rest).1,
           (postprocessLoop aliases whitelist cleaned asimovItems ingestorIdx rest).2.1,
           pmc.2.1 :: (postprocessLoop aliases whitelist cleaned asimovItems ingestorIdx rest).2.2)
      else if pmc.2.2 = "high".toList then
        (pmc.1 :: (postprocessLoop aliases whitelist cleaned asimovItems ingestorIdx rest).1,
         pmc.2.1 :: (postprocessLoop aliases whitelist cleaned asimovItems ingestorIdx rest).2.1,
         (postprocessLoop aliases whitelist cleaned asimovItems ingestorIdx rest).2.2)
      else
        (pmc.1 :: (postprocessLoop aliases whitelist cleaned asimovItems ingestorIdx rest).1,
         (postprocessLoop aliases whitelist cleaned asimovItems ingestorIdx rest).2.1,
         pmc.2.1 :: (postprocessLoop aliases whitelist cleaned asimovItems ingestorIdx rest).2.2)) := by
  simp only [postprocessLoop, h]

theorem postprocessLoop_inv {μ : Type} (aliases : List (List Char × List Char))
    (whitelist : List (List Char)) (cleaned : List Char) (asimovItems : List Chunk)
    (ingestorIdx : List (List Char × μ))
    (halias : ∀ p ∈ aliases, stripChars p.2 = p.2) :
    ∀ (items : List BrandItem) (b : List Char),
      (b ∈ (postprocessLoop aliases whitelist cleaned asimovItems ingestorIdx items).2.1 ∨
        b ∈ (postprocessLoop aliases whitelist cleaned asimovItems ingestorIdx items).2.2) →
      (∃ e ∈ (postprocessLoop aliases whitelist cleaned asimovItems ingestorIdx items).1,
        e.brand = b ∧ e.text ≠ []) ∧ stripChars b = b := by
  intro items
  induction items with
  | nil =>
      intro b hb
      simp [postprocessLoop] at hb
  | cons item rest ih =>
      intro b hb
      cases hproc : processItem aliases cleaned asimovItems ingestorIdx item with
      | none =>
          rw [postprocessLoop_cons_none aliases whitelist cleaned asimovItems
            ingestorIdx item rest hproc] at hb ⊢
          exact ih b hb
      | some pmc =>
          obtain ⟨evText, hopt, hp, hbrne, hevne⟩ := processItem_some hproc
          have hbrand : pmc.1.brand = pmc.2.1 := by
            rw [hp, mkPack_fst_brand, mkPack_snd_fst]
          have htext : pmc.1.text ≠ [] := by
            rw [hp, mkPack_fst_text]
            exact evTextOptD_some_ne_nil hopt hevne (stripChars_noLeadWs _)
          have hmapstr : stripChars pmc.2.1 = pmc.2.1 := by
            rw [hp, mkPack_snd_fst]
            exact mapped_stripped halias (stripChars_idem _)
          rw [postprocessLoop_cons_some aliases whitelist cleaned asimovItems
            ingestorIdx item rest pmc hproc] at hb ⊢
          by_cases hwl : whitelist ≠ []
          · rw [if_pos hwl] at hb ⊢
            by_cases hcw : pmc.2.1 ∈ whitelist ∧ pmc.2.2 = "high".toList
            · rw [if_pos hcw] at hb ⊢
              rcases hb with hb | hb
              · rcases List.mem_cons.mp hb with hb' | hb'
                · subst hb'
                  exact ⟨⟨pmc.1, List.mem_cons_self _ _, hbrand, htext⟩, hmapstr⟩
                · obtain ⟨⟨e, he, hee⟩, hstr⟩ := ih b (Or.inl hb')
                  exact ⟨⟨e, List.mem_cons_of_mem _ he, hee⟩, hstr⟩
              · obtain ⟨⟨e, he, hee⟩, hstr⟩ := ih b (Or.inr hb)
                exact ⟨⟨e, List.mem_cons_of_mem _ he, hee⟩, hstr⟩
            · rw [if_neg hcw] at hb ⊢
              rcases hb with hb | hb
              · obtain ⟨⟨e, he, hee⟩, hstr⟩ := ih b (Or.inl hb)
                exact ⟨⟨e, List.mem_cons_of_mem _ he, hee⟩, hstr⟩
              · rcases List.mem_cons.mp hb with hb' | hb'
                · subst hb'
                  exact ⟨⟨pmc.1, List.mem_cons_self _ _, hbrand, htext⟩, hmapstr⟩
                · obtain ⟨⟨e, he, hee⟩, hstr⟩ := ih b (Or.inr hb')
                  exact ⟨⟨e, List.mem_cons_of_mem _ he, hee⟩, hstr⟩
          · rw [if_neg hwl] at hb ⊢
            by_cases hch : pmc.2.2 = "high".toList
            · rw [if_pos hch] at hb ⊢
              rcases hb with hb | hb
              · rcases List.mem_cons.mp hb with hb' | hb'
                · subst hb'
                  exact ⟨⟨pmc.1, List.mem_cons_self _ _, hbrand, htext⟩, hmapstr⟩
                · obtain ⟨⟨e, he, hee⟩, hstr⟩ := ih b (Or.inl hb')
                  exact ⟨⟨e, List.mem_cons_of_mem _ he, hee⟩, hstr⟩
              · obtain ⟨⟨e, he, hee⟩, hstr⟩ := ih b (Or.inr hb)
                exact ⟨⟨e, List.mem_cons_of_mem _ he, hee⟩, hstr⟩
            · rw [if_neg hch] at hb ⊢
              rcases hb with hb | hb
              · obtain ⟨⟨e, he, hee⟩, hstr⟩ := ih b (Or.inl hb)
                exact ⟨⟨e, List.mem_cons_of_mem _ he, hee⟩, hstr⟩
              · rcases List.mem_cons.mp hb with hb' | hb'
                · subst hb'
                  exact ⟨⟨pmc.1, List.mem_cons_self _ _, hbrand, htext⟩, hmapstr⟩
                · obtain ⟨⟨e, he, hee⟩, hstr⟩ := ih b (Or.inr hb')
                  exact ⟨⟨e, List.mem_cons_of_mem _ he, hee⟩, hstr⟩

theorem postprocess_fields {μ : Type} (aliases : List (List Char × List Char))
    (whitelist : List (List Char)) (cleaned : List Char) (asimovItems : List Chunk)
    (ingestorIdx : List (List Char × μ)) (items : List BrandItem) :
    (postprocessBrandEvidence aliases whitelist cleaned asimovItems ingestorIdx items).brand_mentions
      = dedupeKeepOrder
          (postprocessLoop aliases whitelist cleaned asimovItems ingestorIdx items).2.1 ∧
    (postprocessBrandEvidence aliases whitelist cleaned asimovItems ingestorIdx items).brand_mentions_uncertain
      = dedupeKeepOrder
          ((postprocessLoop aliases whitelist cleaned asimovItems ingestorIdx items).2.2.filter
            (fun x => x ∉ (dedupeKeepOrder
              (postprocessLoop aliases whitelist cleaned asimovItems ingestorIdx items).2.1).map lowerL)) ∧
    (postprocessBrandEvidence aliases whitelist cleaned asimovItems ingestorIdx items).brand_evidence
      = (postprocessLoop aliases whitelist cleaned asimovItems ingestorIdx items).1.filter
          (fun e => lowerL (stripChars e.brand) ∈
            ((postprocessBrandEvidence aliases whitelist cleaned asimovItems ingestorIdx items).brand_mentions ++
             (postprocessBrandEvidence aliases whitelist cleaned asimovItems ingestorIdx items).brand_mentions_uncertain).map lowerL) :=
  ⟨rfl, rfl, rfl⟩

/-! ### Claim C1 -/

/-- C1 (amended): every brand listed in the returned `brand_mentions` or
`brand_mentions_uncertain` has an entry in the returned `brand_evidence`
whose brand matches it case-insensitively and whose evidence text is
non-empty; and, provided the cleaned source text is non-empty, an input item
whose evidence text does not occur case-insensitively in it and whose
normalized brand token does not occur either contributes nothing to any of
the three returned lists.  Alias values are assumed whitespace-stripped, as
`_env_json_dict` guarantees at the only call site. -/
theorem postprocess_brand_evidence_invariant {μ : Type}
    (aliases : List (List Char × List Char)) (whitelist : List (List Char))
    (cleaned : List Char) (asimovItems : List Chunk)
    (ingestorIdx : List (List Char × μ))
    (halias : ∀ p ∈ aliases, stripChars p.2 = p.2) :
    (∀ (items : List BrandItem) (b : List Char),
      b ∈ (postprocessBrandEvidence aliases whitelist cleaned asimovItems ingestorIdx items).brand_mentions ++
          (postprocessBrandEvidence aliases whitelist cleaned asimovItems ingestorIdx items).brand_mentions_uncertain →
      ∃ e ∈ (postprocessBrandEvidence aliases whitelist cleaned asimovItems ingestorIdx items).brand_evidence,
        lowerL e.brand = lowerL b ∧ e.text ≠ []) ∧
    (∀ (pre post : List BrandItem) (item : BrandItem),
      cleaned ≠ [] →
      containsSub (lowerL cleaned) (lowerL (stripChars item.text)) = false →
      find_first_occurrence cleaned (stripChars (normalizeBrandToken item.brand)) = none →
      postprocessBrandEvidence aliases whitelist cleaned asimovItems ingestorIdx (pre ++ item :: post) =
      postprocessBrandEvidence aliases whitelist cleaned asimovItems ingestorIdx (pre ++ post)) := by
  constructor
  · intro items b hb
    obtain ⟨hf1, hf2, hf3⟩ :=
      postprocess_fields aliases whitelist cleaned asimovItems ingestorIdx items
    have hmemloop : b ∈ (postprocessLoop aliases whitelist cleaned asimovItems ingestorIdx items).2.1 ∨
        b ∈ (postprocessLoop aliases whitelist cleaned asimovItems ingestorIdx items).2.2 := by
      rcases List.mem_append.mp hb with h | h
      · rw [hf1] at h
        exact Or.inl (dedupe_mem h)
      · rw [hf2] at h
        exact Or.inr (List.mem_filter.mp (dedupe_mem h)).1
    obtain ⟨⟨e, he, heb, het⟩, hstr⟩ :=
      postprocessLoop_inv aliases whitelist cleaned asimovItems ingestorIdx halias items b hmemloop
    refine ⟨e, ?_, by rw [heb], het⟩
    rw [hf3]
    refine List.mem_filter.mpr ⟨he, ?_⟩
    have hmemmap : lowerL (stripChars e.brand) ∈
        ((postprocessBrandEvidence aliases whitelist cleaned asimovItems ingestorIdx items).brand_mentions ++
         (postprocessBrandEvidence aliases whitelist cleaned asimovItems ingestorIdx items).brand_mentions_uncertain).map lowerL := by
      rw [heb, hstr]
      exact List.mem_map_of_mem lowerL hb
    exact decide_eq_true hmemmap
  · intro pre post item hclean hnf hfind
    exact postprocess_removal aliases whitelist cleaned asimovItems ingestorIdx item
      (processItem_none_of_unfound aliases cleaned asimovItems ingestorIdx item
        hclean hnf hfind) pre post

/-- C1 counterexample (the claim as frozen): with an **empty** cleaned text,
an item whose evidence text and brand occur nowhere in the cleaned text is
nevertheless kept in `brand_mentions`. -/
theorem postprocess_drop_counterexample :
    containsSub (lowerL []) (lowerL (stripChars "xyzq".toList)) = false ∧
    containsSub (lowerL [])
      (lowerL (stripChars (normalizeBrandToken "Brahma".toList))) = false ∧
    (postprocessBrandEvidence (μ := Unit) [] [] [] [] []
      [⟨"Brahma".toList, "xyzq".toList, "high".toList, none, none⟩]).brand_mentions
      = ["Brahma".toList] :=
  ⟨by decide, by decide, by decide⟩

/-- Witness for C1 at concrete inputs: the confirmed brand has enriched
evidence, and an item with unlocatable evidence and brand is dropped. -/
theorem postprocess_brand_evidence_invariant_witness :
    (∃ e ∈ (postprocessBrandEvidence (μ := Unit) [] [] "eu bebo brahma sempre".toList [] []
        [⟨"Brahma".toList, "eu bebo brahma".toList, "high".toList, none, none⟩]).brand_evidence,
      lowerL e.brand = lowerL "Brahma".toList ∧ e.text ≠ []) ∧
    postprocessBrandEvidence (μ := Unit) [] [] "eu bebo brahma sempre".toList [] []
        [⟨"Skol".toList, "quotation absent".toList, "high".toList, none, none⟩] =
      postprocessBrandEvidence (μ := Unit) [] [] "eu bebo brahma sempre".toList [] [] [] := by
  have h := postprocess_brand_evidence_invariant (μ := Unit) [] []
    "eu bebo brahma sempre".toList [] [] (by intro p hp; cases hp)
  constructor
  · exact h.1 [⟨"Brahma".toList, "eu bebo brahma".toList, "high".toList, none, none⟩]
      "Brahma".toList (by decide)
  · exact h.2 [] [] ⟨"Skol".toList, "quotation absent".toList, "high".toList, none, none⟩
      (by decide) (by decide) (by decide)

/-! ### Claim C9 -/

/-- C9 counterexample (the claim as frozen): the same mixed-case brand,
reported once with high and once with low confidence, ends up in **both**
`brand_mentions` and `brand_mentions_uncertain`, so the two lists are not
disjoint under case-insensitive comparison. -/
theorem brand_lists_overlap_counterexample :
    "Brahma".toList ∈ (postprocessBrandEvidence (μ := Unit) [] []
        "eu bebo brahma sempre".toList [] []
        [⟨"Brahma".toList, "eu bebo brahma".toList, "high".toList, none, none⟩,
         ⟨"Brahma".toList, "eu bebo brahma".toList, "low".toList, none, none⟩]).brand_mentions ∧
    "Brahma".toList ∈ (postprocessBrandEvidence (μ := Unit) [] []
        "eu bebo brahma sempre".toList [] []
        [⟨"Brahma".toList, "eu bebo brahma".toList, "high".toList, none, none⟩,
         ⟨"Brahma".toList, "eu bebo brahma".toList, "low".toList, none, none⟩]).brand_mentions_uncertain ∧
    lowerL "Brahma".toList = lowerL "Brahma".toList :=
  ⟨by decide, by decide, rfl⟩

/-- C9 (amended): `brand_mentions_uncertain` never contains the exact
lowercased form of a confirmed brand (the code filters the uncertain list by
comparing each raw entry against the lowercased confirmed entries); in
particular, entries that are themselves fixed by lowercasing never collide
exactly — but a mixed-case brand may appear in both lists. -/
theorem uncertain_not_lowercased_confirmed {μ : Type}
    (aliases : List (List Char × List Char)) (whitelist : List (List Char))
    (cleaned : List Char) (asimovItems : List Chunk)
    (ingestorIdx : List (List Char × μ)) (items : List BrandItem) :
    (∀ x ∈ (postprocessBrandEvidence aliases whitelist cleaned asimovItems ingestorIdx items).brand_mentions_uncertain,
      x ∉ ((postprocessBrandEvidence aliases whitelist cleaned asimovItems ingestorIdx items).brand_mentions).map lowerL) ∧
    (∀ x y,
      x ∈ (postprocessBrandEvidence aliases whitelist cleaned asimovItems ingestorIdx items).brand_mentions_uncertain →
      y ∈ (postprocessBrandEvidence aliases whitelist cleaned asimovItems ingestorIdx items).brand_mentions →
      lowerL x = x → lowerL y = y → x ≠ y) := by
  have hmain : ∀ x ∈ (postprocessBrandEvidence aliases whitelist cleaned asimovItems ingestorIdx items).brand_mentions_uncertain,
      x ∉ ((postprocessBrandEvidence aliases whitelist cleaned asimovItems ingestorIdx items).brand_mentions).map lowerL := by
    intro x hx
    obtain ⟨hf1, hf2, _⟩ :=
      postprocess_fields aliases whitelist cleaned asimovItems ingestorIdx items
    rw [hf2] at hx
    have hx' := List.mem_filter.mp (dedupe_mem hx)
    have : decide (x ∉ (dedupeKeepOrder
        (postprocessLoop aliases whitelist cleaned asimovItems ingestorIdx items).2.1).map lowerL) = true := hx'.2
    rw [hf1]
    simpa using of_decide_eq_true this
  refine ⟨hmain, ?_⟩
  intro x y hx hy hlx hly heq
  refine hmain x hx ?_
  rw [heq, ← hly]
  exact List.mem_map_of_mem lowerL hy

/-- Witness for C9 (amended) at a concrete input. -/
theorem uncertain_not_lowercased_confirmed_witness :
    "Brahma".toList ∉
      ((postprocessBrandEvidence (μ := Unit) [] [] "eu bebo brahma sempre".toList [] []
        [⟨"Brahma".toList, "eu bebo brahma".toList, "high".toList, none, none⟩,
         ⟨"Brahma".toList, "eu bebo brahma".toList, "low".toList, none, none⟩]).brand_mentions).map lowerL := by
  have h := uncertain_not_lowercased_confirmed (μ := Unit) [] []
    "eu bebo brahma sempre".toList [] []
    [⟨"Brahma".toList, "eu bebo brahma".toList, "high".toList, none, none⟩,
     ⟨"Brahma".toList, "eu bebo brahma".toList, "low".toList, none, none⟩]
  exact h.1 "Brahma".toList (by decide)

/-! ### Claim C2 -/

/-- C2 counterexample (the claim as frozen): an item whose evidence text is
not findable in the cleaned text but whose brand occurs there, reported with
high confidence, is classified as **confirmed**, not uncertain. -/
theorem unfound_evidence_confirmed_counterexample :
    containsSub (lowerL "eu bebo brahma sempre".toList)
      (lowerL (stripChars "quotation absent".toList)) = false ∧
    (postprocessBrandEvidence (μ := Unit) [] [] "eu bebo brahma sempre".toList [] []
      [⟨"Brahma".toList, "quotation absent".toList, "high".toList, none, none⟩]).brand_mentions
      = ["Brahma".toList] ∧
    (postprocessBrandEvidence (μ := Unit) [] [] "eu bebo brahma sempre".toList [] []
      [⟨"Brahma".toList, "quotation absent".toList, "high".toList, none, none⟩]).brand_mentions_uncertain
      = [] :=
  ⟨by decide, by decide, by decide⟩

/-- C2 (amended): with an empty whitelist, an item whose evidence text is not
found case-insensitively in the non-empty cleaned text is dropped when its
normalized brand does not occur there either; when the brand does occur, the
item's evidence is replaced by a window around the brand's first occurrence
and the item keeps its confidence-based classification — `high` still lands
in `brand_mentions`, only `low` lands in `brand_mentions_uncertain`;
retrieved context chunks never influence the classification. -/
theorem postprocess_unfound_evidence {μ : Type} (asimovItems : List Chunk)
    (ingestorIdx : List (List Char × μ)) (cleaned : List Char) (item : BrandItem)
    (s e : Nat)
    (hnf : containsSub (lowerL cleaned) (lowerL (stripChars item.text)) = false)
    (hfind : find_first_occurrence cleaned
      (stripChars (normalizeBrandToken item.brand)) = some (s, e))
    (hlooks : looksLikeBrandToken (stripChars (normalizeBrandToken item.brand)) = true)
    (hev : stripChars item.text ≠ []) :
    (procConf item.confidence = "high".toList →
      (postprocessBrandEvidence [] [] cleaned asimovItems ingestorIdx [item]).brand_mentions
        = [stripChars (normalizeBrandToken item.brand)] ∧
      (postprocessBrandEvidence [] [] cleaned asimovItems ingestorIdx [item]).brand_mentions_uncertain
        = []) ∧
    (procConf item.confidence = "low".toList →
      (postprocessBrandEvidence [] [] cleaned asimovItems ingestorIdx [item]).brand_mentions = [] ∧
      (postprocessBrandEvidence [] [] cleaned asimovItems ingestorIdx [item]).brand_mentions_uncertain
        = [stripChars (normalizeBrandToken item.brand)]) ∧
    (∃ ep ∈ (postprocessBrandEvidence [] [] cleaned asimovItems ingestorIdx [item]).brand_evidence,
      ep.text = (extractWindow cleaned s e 90).take 600) := by
  obtain ⟨htext, hneedle, _, _⟩ := find_first_some hfind
  have hopt : evTextOptD cleaned (stripChars (normalizeBrandToken item.brand))
      (stripChars item.text) = some ((extractWindow cleaned s e 90).take 600) := by
    unfold evTextOptD
    rw [if_pos ⟨htext, hnf⟩, hfind]
  have hproc : processItem (μ := μ) [] cleaned asimovItems ingestorIdx item =
      some (mkPack [] asimovItems ingestorIdx item
        (stripChars (normalizeBrandToken item.brand)) (procConf item.confidence)
        ((extractWindow cleaned s e 90).take 600)) := by
    unfold processItem
    rw [if_neg (by push_neg; exact ⟨hneedle, hev⟩), if_neg (by rw [hlooks]; simp), hopt]
  have hkey : dedupeKey (stripChars (normalizeBrandToken item.brand)) ≠ [] := by
    unfold dedupeKey
    rw [stripChars_idem]
    exact lowerL_ne_nil hneedle
  have hmapped : (lookupAssoc ([] : List (List Char × List Char))
      (stripChars (normalizeBrandToken item.brand))).getD
      (stripChars (normalizeBrandToken item.brand)) =
      stripChars (normalizeBrandToken item.brand) := rfl
  have hloop := postprocessLoop_cons_some (μ := μ) [] [] cleaned asimovItems
    ingestorIdx item [] _ hproc
  rw [if_neg (by simp)] at hloop
  have hloopnil : postprocessLoop (μ := μ) [] [] cleaned asimovItems ingestorIdx [] =
      ([], [], []) := rfl
  rw [hloopnil, mkPack_snd_snd, mkPack_snd_fst, hmapped] at hloop
  rcases procConf_cases item.confidence with hconf | hconf
  · rw [if_pos hconf] at hloop
    have hloop2 : postprocessLoop (μ := μ) [] [] cleaned asimovItems ingestorIdx [item] =
        ([(mkPack [] asimovItems ingestorIdx item
            (stripChars (normalizeBrandToken item.brand)) (procConf item.confidence)
            ((extractWindow cleaned s e 90).take 600)).1],
         [stripChars (normalizeBrandToken item.brand)], []) := by rw [hloop]
    have hm : (postprocessBrandEvidence (μ := μ) [] [] cleaned asimovItems ingestorIdx
        [item]).brand_mentions = [stripChars (normalizeBrandToken item.brand)] := by
      rw [(postprocess_fields [] [] cleaned asimovItems ingestorIdx [item]).1, hloop2]
      exact dedupe_singleton hkey
    have hu : (postprocessBrandEvidence (μ := μ) [] [] cleaned asimovItems ingestorIdx
        [item]).brand_mentions_uncertain = [] := by
      rw [(postprocess_fields [] [] cleaned asimovItems ingestorIdx [item]).2.1, hloop2]
      rfl
    refine ⟨fun _ => ⟨hm, hu⟩, fun hlow => absurd (hconf ▸ hlow) (by decide), ?_⟩
    refine ⟨(mkPack [] asimovItems ingestorIdx item
      (stripChars (normalizeBrandToken item.brand)) (procConf item.confidence)
      ((extractWindow cleaned s e 90).take 600)).1, ?_, ?_⟩
    · rw [(postprocess_fields [] [] cleaned asimovItems ingestorIdx [item]).2.2, hloop2]
      refine List.mem_filter.mpr ⟨List.mem_cons_self _ _, ?_⟩
      refine decide_eq_true ?_
      rw [mkPack_fst_brand, hmapped, stripChars_idem, hm, hu]
      simp
    · rw [mkPack_fst_text, List.take_take]
      norm_num
  · rw [if_neg (by rw [hconf]; decide)] at hloop
    have hloop2 : postprocessLoop (μ := μ) [] [] cleaned asimovItems ingestorIdx [item] =
        ([(mkPack [] asimovItems ingestorIdx item
            (stripChars (normalizeBrandToken item.brand)) (procConf item.confidence)
            ((extractWindow cleaned s e 90).take 600)).1],
         [], [stripChars (normalizeBrandToken item.brand)]) := by rw [hloop]
    have hm : (postprocessBrandEvidence (μ := μ) [] [] cleaned asimovItems ingestorIdx
        [item]).brand_mentions = [] := by
      rw [(postprocess_fields [] [] cleaned asimovItems ingestorIdx [item]).1, hloop2]
      rfl
    have hu : (postprocessBrandEvidence (μ := μ) [] [] cleaned asimovItems ingestorIdx
        [item]).brand_mentions_uncertain = [stripChars (normalizeBrandToken item.brand)] := by
      rw [(postprocess_fields [] [] cleaned asimovItems ingestorIdx [item]).2.1, hloop2]
      have hfe : (([stripChars (normalizeBrandToken item.brand)] : List (List Char)).filter
          (fun x => decide (x ∉ (dedupeKeepOrder
            (([(mkPack [] asimovItems ingestorIdx item
                (stripChars (normalizeBrandToken item.brand)) (procConf item.confidence)
                ((extractWindow cleaned s e 90).take 600)).1],
              [], [stripChars (normalizeBrandToken item.brand)]) :
                List (EvPack μ) × List (List Char) × List (List Char)).2.1).map lowerL))) =
          [stripChars (normalizeBrandToken item.brand)] := by
        simp [dedupeKeepOrder, dedupeAux]
      rw [hfe]
      exact dedupe_singleton hkey
    refine ⟨fun hhigh => absurd (hconf ▸ hhigh) (by decide), fun _ => ⟨hm, hu⟩, ?_⟩
    refine ⟨(mkPack [] asimovItems ingestorIdx item
      (stripChars (normalizeBrandToken item.brand)) (procConf item.confidence)
      ((extractWindow cleaned s e 90).take 600)).1, ?_, ?_⟩
    · rw [(postprocess_fields [] [] cleaned asimovItems ingestorIdx [item]).2.2, hloop2]
      refine List.mem_filter.mpr ⟨List.mem_cons_self _ _, ?_⟩
      refine decide_eq_true ?_
      rw [mkPack_fst_brand, hmapped, stripChars_idem, hm, hu]
      simp
    · rw [mkPack_fst_text, List.take_take]
      norm_num

/-- Witness for C2 (amended) at concrete inputs: the unfound-evidence,
brand-present, high-confidence item is confirmed with window evidence. -/
theorem postprocess_unfound_evidence_witness :
    (postprocessBrandEvidence (μ := Unit) [] [] "eu bebo brahma sempre".toList [] []
      [⟨"Brahma".toList, "quotation absent".toList, "high".toList, none, none⟩]).brand_mentions
      = [stripChars (normalizeBrandToken "Brahma".toList)] ∧
    (∃ ep ∈ (postprocessBrandEvidence (μ := Unit) [] [] "eu bebo brahma sempre".toList [] []
      [⟨"Brahma".toList, "quotation absent".toList, "high".toList, none, none⟩]).brand_evidence,
      ep.text = (extractWindow "eu bebo brahma sempre".toList 8 14 90).take 600) := by
  have h := postprocess_unfound_evidence (μ := Unit) [] []
    "eu bebo brahma sempre".toList
    ⟨"Brahma".toList, "quotation absent".toList, "high".toList, none, none⟩
    8 14 (by decide) (by decide) (by decide) (by decide)
  exact ⟨(h.1 (by decide)).1, h.2.2⟩

end DeskResearch
